import Mathlib

/-!
# MiniKV — verification of the natural-language specification against the source

Shallow embedding of the parts of the `minikv` repository that the frozen
claims C1–C10 are about:

* `src/core/wal.py` — `WALEntry.from_json`, `WAL.replay`, the `log_*`
  operations, `checkpoint`, `truncate`;
* `src/core/store.py` — `KeyValueStore` (`set`, `get`, `delete`, `update`,
  `__init__` recovery dispatch, `_recover_from_wal`, `_load_from_persistence`);
* `src/distributed/consistent_hash.py` — `ConsistentHashRing` (`add_node`,
  `remove_node`, `get_node`, `get_nodes_for_replication`);
* `src/distributed/gateway.py` — the routing decision logic of the
  `set_key` / `delete_key` endpoints;
* `src/distributed/merkle_tree.py` — `MerkleTree` (`__init__`, `_build_tree`).

Modelling conventions:

* JSON-serializable Python values are the inductive type `Json`.
* Python `dict`s are association lists (`List (κ × β)`) in insertion order;
  `dictInsert` overwrites in place the binding of an existing key and appends
  a new key at the end, `dictDelete` removes a binding, exactly the
  observable semantics of `d[k] = v` / `del d[k]` on a `dict`.
* Cryptographic hash functions (MD5 for the ring, SHA-256 for the Merkle
  tree) and the canonical JSON encoder `json.dumps(·, sort_keys=True)` are
  opaque function parameters; claims that depend on their properties take
  those properties as explicit hypotheses.
* Fallible code returns `Option`/`Except`; a Python exception escaping the
  modelled function is `none` / `.error`.
* Locks, timestamps, fsync and file handles have no observable effect on any
  claim and are not represented (all claims about the store are
  single-threaded by their own statement).
-/

/-- A JSON-serializable Python value (`null`, `bool`, number, string, array,
string-keyed object), the value domain of the store.  Numbers are modelled as
integers; no claim depends on non-integer numerics.  Objects are in insertion
order, as `json.loads` produces them. -/
inductive Json where
  | null : Json
  | bool (b : Bool) : Json
  | num (n : Int) : Json
  | str (s : String) : Json
  | arr (elems : List Json) : Json
  | obj (fields : List (String × Json)) : Json

mutual

/-- Structural equality of JSON values (Python `==` on decoded documents). -/
def Json.beq : Json → Json → Bool
  | .null, .null => true
  | .bool a, .bool b => a == b
  | .num a, .num b => a == b
  | .str a, .str b => a == b
  | .arr a, .arr b => Json.beqList a b
  | .obj a, .obj b => Json.beqFields a b
  | _, _ => false

def Json.beqList : List Json → List Json → Bool
  | [], [] => true
  | x :: xs, y :: ys => Json.beq x y && Json.beqList xs ys
  | _, _ => false

def Json.beqFields : List (String × Json) → List (String × Json) → Bool
  | [], [] => true
  | (k1, v1) :: xs, (k2, v2) :: ys =>
      k1 == k2 && Json.beq v1 v2 && Json.beqFields xs ys
  | _, _ => false

end

mutual

theorem Json.eq_of_beq : ∀ {a b : Json}, Json.beq a b = true → a = b
  | .null, .null, _ => rfl
  | .bool _, .bool _, h => by
      simp only [Json.beq, beq_iff_eq] at h; rw [h]
  | .num _, .num _, h => by
      simp only [Json.beq, beq_iff_eq] at h; rw [h]
  | .str _, .str _, h => by
      simp only [Json.beq, beq_iff_eq] at h; rw [h]
  | .arr a, .arr b, h => by
      rw [Json.eqList_of_beq (a := a) (b := b) h]
  | .obj a, .obj b, h => by
      rw [Json.eqFields_of_beq (a := a) (b := b) h]

theorem Json.eqList_of_beq : ∀ {a b : List Json}, Json.beqList a b = true → a = b
  | [], [], _ => rfl
  | x :: xs, y :: ys, h => by
      simp only [Json.beqList, Bool.and_eq_true] at h
      rw [Json.eq_of_beq h.1, Json.eqList_of_beq h.2]

theorem Json.eqFields_of_beq :
    ∀ {a b : List (String × Json)}, Json.beqFields a b = true → a = b
  | [], [], _ => rfl
  | (k1, v1) :: xs, (k2, v2) :: ys, h => by
      simp only [Json.beqFields, Bool.and_eq_true, beq_iff_eq] at h
      rw [h.1.1, Json.eq_of_beq h.1.2, Json.eqFields_of_beq h.2]

end

mutual

theorem Json.beq_refl : ∀ a : Json, Json.beq a a = true
  | .null => rfl
  | .bool b => by simp [Json.beq]
  | .num n => by simp [Json.beq]
  | .str s => by simp [Json.beq]
  | .arr a => by simpa [Json.beq] using Json.beqList_refl a
  | .obj a => by simpa [Json.beq] using Json.beqFields_refl a

theorem Json.beqList_refl : ∀ a : List Json, Json.beqList a a = true
  | [] => rfl
  | x :: xs => by
      simp only [Json.beqList, Bool.and_eq_true]
      exact ⟨Json.beq_refl x, Json.beqList_refl xs⟩

theorem Json.beqFields_refl : ∀ a : List (String × Json), Json.beqFields a a = true
  | [] => rfl
  | (k, v) :: xs => by
      simp only [Json.beqFields, Bool.and_eq_true, beq_self_eq_true, true_and]
      exact ⟨Json.beq_refl v, Json.beqFields_refl xs⟩

end

instance : DecidableEq Json := fun a b =>
  if h : Json.beq a b = true then isTrue (Json.eq_of_beq h)
  else isFalse (fun he => h (he ▸ Json.beq_refl a))

/-! ## Python `dict` as an association list -/

section Dict

variable {κ : Type} {β : Type} [DecidableEq κ]

/-- `d[k] = v` on a Python dict: overwrite the binding in place if `k` is
present, otherwise append `(k, v)` at the end (insertion order). -/
def dictInsert (d : List (κ × β)) (k : κ) (v : β) : List (κ × β) :=
  if d.any (fun p => p.1 = k) then
    d.map (fun p => if p.1 = k then (k, v) else p)
  else
    d ++ [(k, v)]

/-- `del d[k]` on a Python dict (no-op when the key is absent, matching the
guarded deletes in the source). -/
def dictDelete (d : List (κ × β)) (k : κ) : List (κ × β) :=
  d.filter (fun p => p.1 ≠ k)

/-- `d.get(k)` on a Python dict, as an `Option`. -/
def dictGet (d : List (κ × β)) (k : κ) : Option β :=
  match d with
  | [] => none
  | p :: rest => if p.1 = k then some p.2 else dictGet rest k

/-- `k in d` on a Python dict. -/
def dictMem (d : List (κ × β)) (k : κ) : Bool :=
  d.any (fun p => p.1 = k)

theorem dictGet_insert_self (d : List (κ × β)) (k : κ) (v : β) :
    dictGet (dictInsert d k v) k = some v := by
  unfold dictInsert
  split
  · rename_i h
    induction d with
    | nil => simp at h
    | cons p rest ih =>
      simp only [List.map_cons]
      by_cases hp : p.1 = k
      · simp [dictGet, hp]
      · simp only [if_neg hp]
        simp only [List.any_cons, Bool.or_eq_true, decide_eq_true_eq] at h
        rcases h with h | h
        · exact absurd h hp
        · simpa [dictGet, hp] using ih h
  · induction d with
    | nil => simp [dictGet]
    | cons p rest ih =>
      rename_i h
      simp only [List.any_cons, Bool.or_eq_true, decide_eq_true_eq, not_or] at h
      simpa [dictGet, h.1] using ih (by simpa using h.2)

theorem dictGet_delete_self (d : List (κ × β)) (k : κ) :
    dictGet (dictDelete d k) k = none := by
  induction d with
  | nil => rfl
  | cons p rest ih =>
    by_cases hp : p.1 = k
    · simpa [dictDelete, hp] using ih
    · simpa [dictDelete, dictGet, hp] using ih

theorem dictMem_insert_self (d : List (κ × β)) (k : κ) (v : β) :
    dictMem (dictInsert d k v) k = true := by
  unfold dictMem dictInsert
  split
  · rename_i h
    rw [List.any_eq_true] at h ⊢
    obtain ⟨p, hp, hpk⟩ := h
    refine ⟨(k, v), List.mem_map.mpr ⟨p, hp, ?_⟩, by simp⟩
    simp only [decide_eq_true_eq] at hpk
    simp [hpk]
  · simp

end Dict

/-! ## WAL entries and the store (`src/core/wal.py`, `src/core/store.py`)

The store's in-memory map `self._data` is a Python dict whose keys are
whatever the WAL replay / the `set` API put there; the `set`/`get`/`delete`
API always uses string keys, while replay indexes the dict directly with the
decoded `key` field of an entry.  The map is therefore modelled with `Json`
keys, string API keys entering as `Json.str k`.  The DurableMap
(`PersistenceBackend`) is likewise a key→value mapping and is modelled as the
same kind of dict. -/

/-- One record of the write-ahead log, the dataclass `WALEntry` of
`src/core/wal.py`.  All four fields hold decoded JSON values:
`WALEntry(**data)` performs no type checking, so a hand-written log line may
put any JSON value in any field.  Entries written by the store itself have a
string timestamp (`datetime.utcnow().isoformat()` — wall-clock text with no
bearing on any claim, written as `Json.str ""` by the modelled loggers), a
string operation, a string-or-null key and an arbitrary value. -/
structure WALEntry where
  timestamp : Json
  operation : Json
  key : Json
  value : Json
deriving DecidableEq

/-- `WALEntry.from_json` applied to an already-decoded JSON document
(`json.loads` output): `WALEntry(**data)` succeeds exactly when `data` is an
object whose key set is exactly `{timestamp, operation, key, value}` (the
dataclass has these four required parameters and no others); any other JSON
document raises `TypeError`, modelled as `.error ()`. -/
def WALEntry.from_json (j : Json) : Except Unit WALEntry :=
  match j with
  | Json.obj fields =>
      let ks := fields.map Prod.fst
      if ks.length = 4 ∧ "timestamp" ∈ ks ∧ "operation" ∈ ks ∧ "key" ∈ ks
          ∧ "value" ∈ ks then
        Except.ok
          { timestamp := (dictGet fields "timestamp").getD Json.null
            operation := (dictGet fields "operation").getD Json.null
            key := (dictGet fields "key").getD Json.null
            value := (dictGet fields "value").getD Json.null }
      else
        Except.error ()
  | _ => Except.error ()

/-- `WAL.replay` (`src/core/wal.py:141-164`).  The file is represented by the
per-line outcome of `json.loads`: a blank or JSON-malformed line — in
particular a truncated trailing line — is `none` (Python: skipped, either by
the `if line:` guard or by the `except json.JSONDecodeError` handler), a
syntactically valid JSON line is `some j`.  `WALEntry.from_json` failures
(`TypeError`) are *not* caught by the `except json.JSONDecodeError` clause
and abort `replay`, modelled by `.error`. -/
def WAL.replayLines (lines : List (Option Json)) : Except Unit (List WALEntry) :=
  match lines with
  | [] => Except.ok []
  | none :: rest => WAL.replayLines rest
  | some j :: rest =>
      match WALEntry.from_json j with
      | Except.error _ => Except.error ()
      | Except.ok e => (WAL.replayLines rest).map (fun es => e :: es)

/-- The WAL as the store observes it: the enabled flag and the sequence of
entries currently in the log file (append order). -/
structure WALState where
  enabled : Bool
  entries : List WALEntry
deriving DecidableEq

/-- `WAL.log_set` (`src/core/wal.py:78-95`): append a SET entry when enabled,
no-op when disabled. -/
def WALState.log_set (w : WALState) (k : String) (v : Json) : WALState :=
  if w.enabled then
    { w with entries := w.entries ++
        [⟨Json.str "", Json.str "SET", Json.str k, v⟩] }
  else w

/-- `WAL.log_delete` (`src/core/wal.py:97-113`): append a DELETE entry (value
`null`) when enabled. -/
def WALState.log_delete (w : WALState) (k : String) : WALState :=
  if w.enabled then
    { w with entries := w.entries ++
        [⟨Json.str "", Json.str "DELETE", Json.str k, Json.null⟩] }
  else w

/-- `WAL.checkpoint` (`src/core/wal.py:173-185`): flush + fsync the handle and
return the entry count.  It appends nothing; the log contents are unchanged,
so on the modelled state it is the identity (returning the count). -/
def WALState.checkpoint (w : WALState) : Nat × WALState :=
  (w.entries.length, w)

/-- `KeyValueStore` (`src/core/store.py`): the in-memory dict, the optional
WAL and the optional DurableMap contents. -/
structure KeyValueStore where
  data : List (Json × Json)
  wal : Option WALState
  persistence : Option (List (Json × Json))
deriving DecidableEq

namespace KeyValueStore

/-- `KeyValueStore.set` (`src/core/store.py:52-70`): log to WAL first, update
the in-memory dict, persist to the backend. -/
def set (s : KeyValueStore) (k : String) (v : Json) : KeyValueStore :=
  { data := dictInsert s.data (Json.str k) v
    wal := s.wal.map (fun w => w.log_set k v)
    persistence := s.persistence.map (fun p => dictInsert p (Json.str k) v) }

/-- `KeyValueStore.get` (`src/core/store.py:72-83`): `self._data.get(key)` —
returns the stored value, or Python `None` (the JSON null) when absent. -/
def get (s : KeyValueStore) (k : String) : Json :=
  (dictGet s.data (Json.str k)).getD Json.null

/-- `KeyValueStore.delete` (`src/core/store.py:85-110`): `False` and no state
change when the key is absent; otherwise log DELETE, remove from the
in-memory dict and from the backend, return `True`. -/
def delete (s : KeyValueStore) (k : String) : Bool × KeyValueStore :=
  if dictMem s.data (Json.str k) then
    (true,
      { data := dictDelete s.data (Json.str k)
        wal := s.wal.map (fun w => w.log_delete k)
        persistence := s.persistence.map (fun p => dictDelete p (Json.str k)) })
  else
    (false, s)

/-- `KeyValueStore.update` (`src/core/store.py:179-197`): disable the WAL,
`set` each pair of the dict in iteration order, then re-enable the WAL and
call `WAL.checkpoint()` (a flush — see `WALState.checkpoint`). -/
def update (s : KeyValueStore) (m : List (String × Json)) : KeyValueStore :=
  let s1 := { s with wal := s.wal.map (fun (w : WALState) => ⟨false, w.entries⟩) }
  let s2 := m.foldl (fun acc kv => acc.set kv.1 kv.2) s1
  { s2 with wal := s2.wal.map (fun (w : WALState) => ⟨true, w.entries⟩) }

/-- One step of the replay loop of `_recover_from_wal`
(`src/core/store.py:213-219`): apply a SET/DELETE/CLEAR entry to the
in-memory dict; any other operation tag is ignored by the if/elif chain. -/
def applyEntry (data : List (Json × Json)) (e : WALEntry) : List (Json × Json) :=
  if e.operation = Json.str "SET" then dictInsert data e.key e.value
  else if e.operation = Json.str "DELETE" then dictDelete data e.key
  else if e.operation = Json.str "CLEAR" then []
  else data

/-- `KeyValueStore.__init__` (`src/core/store.py:19-50`) together with
`_recover_from_wal` (`:199-233`) and `_load_from_persistence` (`:235-241`).

Inputs: the surviving WAL file as per-line `json.loads` outcomes (`none` when
the WAL is disabled) and the DurableMap contents (`none` when no backend is
attached).

* both present → `_recover_from_wal`: `replay()` the WAL (whose `TypeError`s
  propagate out of the constructor, modelled by `.error`), apply the entries
  to the **empty** in-memory dict, re-save every surviving in-memory pair to
  the DurableMap, truncate the WAL;
* only the DurableMap present → `_load_from_persistence`: hydrate the
  in-memory dict from `load_all()`;
* otherwise → empty store.  With a WAL and no DurableMap the file is left as
  it is; its well-formed entries are kept as the log contents. -/
def init (walLines : Option (List (Option Json)))
    (pers : Option (List (Json × Json))) : Except Unit KeyValueStore :=
  match walLines, pers with
  | some lines, some p =>
      (WAL.replayLines lines).map (fun entries =>
        let recovered := entries.foldl applyEntry []
        { data := recovered
          wal := some ⟨true, []⟩
          persistence := some (recovered.foldl
            (fun acc kv => dictInsert acc kv.1 kv.2) p) })
  | some lines, none =>
      Except.ok
        { data := []
          wal := some ⟨true, lines.filterMap
            (fun o => o.bind (fun j => (WALEntry.from_json j).toOption))⟩
          persistence := none }
  | none, some p =>
      Except.ok { data := p, wal := none, persistence := some p }
  | none, none =>
      Except.ok { data := [], wal := none, persistence := none }

end KeyValueStore

/-! ## Claims C9 and C10 -/

/-- **C9.** For every store, key `k` and value `v`, executed single-threaded:
after `set(k, v)`, `get(k)` returns `v`; and after `set(k, v)` followed by
`delete(k)`, `delete` returned `true` and `get(k)` returns null. -/
theorem C9_set_get_delete_roundtrip (s : KeyValueStore) (k : String) (v : Json) :
    (s.set k v).get k = v
    ∧ ((s.set k v).delete k).1 = true
    ∧ (((s.set k v).delete k).2).get k = Json.null := by
  refine ⟨?_, ?_, ?_⟩
  · simp [KeyValueStore.get, KeyValueStore.set, dictGet_insert_self]
  · simp [KeyValueStore.delete, KeyValueStore.set, dictMem_insert_self]
  · simp [KeyValueStore.delete, KeyValueStore.set, dictMem_insert_self,
      KeyValueStore.get, dictGet_delete_self]

/-- **C10.** For every store and key `k` not present in the in-memory map,
`delete(k)` returns `false` and leaves the store — in-memory map, WAL file
and DurableMap — exactly as it was. -/
theorem C10_delete_absent_frame (s : KeyValueStore) (k : String)
    (h : dictMem s.data (Json.str k) = false) :
    s.delete k = (false, s) := by
  simp [KeyValueStore.delete, h]

/-- Witness for C10 at a concrete store: deleting the absent key `"b"` from a
one-entry store returns `false` and the untouched store. -/
theorem C10_delete_absent_frame_witness :
    dictMem ([(Json.str "a", Json.num 1)] : List (Json × Json)) (Json.str "b") = false
    ∧ KeyValueStore.delete ⟨[(Json.str "a", Json.num 1)], some ⟨true, []⟩, some []⟩ "b"
      = (false, ⟨[(Json.str "a", Json.num 1)], some ⟨true, []⟩, some []⟩) :=
  ⟨by decide, C10_delete_absent_frame ⟨[(Json.str "a", Json.num 1)], some ⟨true, []⟩, some []⟩ "b" (by decide)⟩

/-! ## Claim C5 — batch `update` -/

/-- The effect on a dict of `set`ting every pair of `m` in order. -/
def bulkInsert (d : List (Json × Json)) (m : List (String × Json)) : List (Json × Json) :=
  m.foldl (fun acc kv => dictInsert acc (Json.str kv.1) kv.2) d

theorem foldSet_disabledWal (m : List (String × Json)) :
    ∀ (t : KeyValueStore) (es : List WALEntry) (p : List (Json × Json)),
    t.wal = some ⟨false, es⟩ → t.persistence = some p →
    m.foldl (fun acc kv => acc.set kv.1 kv.2) t =
      ⟨bulkInsert t.data m, some ⟨false, es⟩, some (bulkInsert p m)⟩ := by
  induction m with
  | nil =>
    intro t es p hw hp
    cases t
    simp_all [bulkInsert]
  | cons kv rest ih =>
    intro t es p hw hp
    rw [List.foldl_cons]
    have h := ih (t.set kv.1 kv.2) es (dictInsert p (Json.str kv.1) kv.2)
      (by simp [KeyValueStore.set, hw, WALState.log_set])
      (by simp [KeyValueStore.set, hp])
    rw [h]
    simp [KeyValueStore.set, bulkInsert]

/-- **C5 (amended).** For every store with WAL and DurableMap attached and
every map `m`, `update(m)` disables the WAL, applies `set` for each pair of
`m` in order (each bulk member is synchronously persisted to the DurableMap
and no per-key WAL entry is written), then re-enables the WAL and calls
`WAL.checkpoint()`, which only flushes the file: the resulting log is exactly
the log from before the call — no checkpoint marker entry is appended (the
WAL format has no such entry kind). -/
theorem C5_update_bulk_amended (s : KeyValueStore) (m : List (String × Json))
    (w : WALState) (p : List (Json × Json))
    (hw : s.wal = some w) (hp : s.persistence = some p) :
    s.update m = ⟨bulkInsert s.data m, some ⟨true, w.entries⟩, some (bulkInsert p m)⟩ := by
  unfold KeyValueStore.update
  rw [hw]
  simp only [Option.map_some']
  rw [foldSet_disabledWal m _ w.entries p rfl (by simpa using hp)]
  simp [bulkInsert]

/-- **C5 (counterexample to the claim as stated).** Updating the empty store
(WAL enabled and empty, empty DurableMap) with `{"a": true}` leaves the WAL
log empty: no checkpoint marker entry is appended to the log, contrary to the
claim.  The data and the DurableMap do receive the bulk member. -/
theorem C5_update_no_checkpoint_marker :
    KeyValueStore.update ⟨[], some ⟨true, []⟩, some []⟩ [("a", Json.bool true)]
      = ⟨[(Json.str "a", Json.bool true)], some ⟨true, []⟩,
          some [(Json.str "a", Json.bool true)]⟩ := by
  rfl

/-- Witness for C5 (amended) at a concrete store: same scenario as the
counterexample, obtained from the general theorem. -/
theorem C5_update_bulk_amended_witness :
    KeyValueStore.update ⟨[(Json.str "x", Json.null)], some ⟨true, []⟩, some []⟩
        [("a", Json.num 2)]
      = ⟨bulkInsert [(Json.str "x", Json.null)] [("a", Json.num 2)],
          some ⟨true, []⟩, some (bulkInsert [] [("a", Json.num 2)])⟩ :=
  C5_update_bulk_amended ⟨[(Json.str "x", Json.null)], some ⟨true, []⟩, some []⟩
    [("a", Json.num 2)] ⟨true, []⟩ [] rfl rfl

/-! ## Claim C1 — startup recovery with both WAL and DurableMap -/

/-- **C1 (evaluation at the failing input).** A store constructed with a
DurableMap containing `{"a": 1}` and an empty WAL file: the claim (and spec
I4 / recovery step 1) says the recovered in-memory map contains `"a"` from
the `load_all()` snapshot.  The code's `__init__` calls `_recover_from_wal()`
when both are attached, which never calls `load_all()`: the recovered
in-memory map is empty, `get("a")` is null, and the key survives only inside
the DurableMap, invisible to the store. -/
theorem C1_snapshot_key_lost_on_recovery :
    KeyValueStore.init (some []) (some [(Json.str "a", Json.num 1)])
      = Except.ok ⟨[], some ⟨true, []⟩, some [(Json.str "a", Json.num 1)]⟩
    ∧ (KeyValueStore.init (some []) (some [(Json.str "a", Json.num 1)])).map
        (fun s => s.get "a") = Except.ok Json.null :=
  ⟨rfl, rfl⟩

/-! ## Claim C4 — WAL replay error tolerance -/

theorem replayLines_ok_of_shaped (lines : List (Option Json))
    (h : ∀ j, some j ∈ lines → (WALEntry.from_json j).isOk = true) :
    WAL.replayLines lines =
      Except.ok (lines.filterMap
        (fun o => o.bind (fun j => (WALEntry.from_json j).toOption))) := by
  induction lines with
  | nil => rfl
  | cons o rest ih =>
    have hrest : ∀ j, some j ∈ rest → (WALEntry.from_json j).isOk = true :=
      fun j hj => h j (List.mem_cons_of_mem _ hj)
    cases o with
    | none =>
      simp only [WAL.replayLines, List.filterMap_cons, Option.bind]
      exact ih hrest
    | some j =>
      have hj := h j (List.mem_cons_self _ _)
      cases hfj : WALEntry.from_json j with
      | error e => rw [hfj] at hj; simp [Except.isOk, Except.toBool] at hj
      | ok e =>
        simp only [WAL.replayLines, hfj, ih hrest, Except.map,
          List.filterMap_cons, Option.bind, Except.toOption]

theorem replayLines_error_of_bad (lines : List (Option Json))
    (h : ∃ j, some j ∈ lines ∧ (WALEntry.from_json j).isOk = false) :
    WAL.replayLines lines = Except.error () := by
  induction lines with
  | nil => obtain ⟨j, hj, _⟩ := h; simp at hj
  | cons o rest ih =>
    obtain ⟨j, hj, hbad⟩ := h
    cases o with
    | none =>
      rcases List.mem_cons.mp hj with hj0 | hj'
      · exact absurd hj0 (by simp)
      · exact ih ⟨j, hj', hbad⟩
    | some j0 =>
      rcases List.mem_cons.mp hj with hj0 | hj'
      · have : j0 = j := by injection hj0.symm
        subst this
        cases hfj : WALEntry.from_json j0 with
        | error e => simp [WAL.replayLines, hfj]
        | ok e => rw [hfj] at hbad; simp [Except.isOk, Except.toBool] at hbad
      · cases hfj : WALEntry.from_json j0 with
        | error e => simp [WAL.replayLines, hfj]
        | ok e => simp [WAL.replayLines, hfj, ih ⟨j, hj', hbad⟩, Except.map]

/-- **C4 (amended).** `replay` silently skips every line on which
`json.loads` fails — blank lines and a truncated trailing line included —
and returns the successfully parsed entries in file order; but a line that is
valid JSON without the `LogEntry` shape is *not* skipped: `WALEntry(**data)`
raises `TypeError`, which the `except json.JSONDecodeError` handler does not
catch, so `replay` aborts with that error. -/
theorem C4_replay_skips_amended (lines : List (Option Json)) :
    ((∀ j, some j ∈ lines → (WALEntry.from_json j).isOk = true) →
      WAL.replayLines lines =
        Except.ok (lines.filterMap
          (fun o => o.bind (fun j => (WALEntry.from_json j).toOption))))
    ∧ ((∃ j, some j ∈ lines ∧ (WALEntry.from_json j).isOk = false) →
      WAL.replayLines lines = Except.error ()) :=
  ⟨replayLines_ok_of_shaped lines, replayLines_error_of_bad lines⟩

/-- A syntactically well-formed SET log line, as decoded JSON. -/
def sampleSetLine : Json :=
  Json.obj [("timestamp", Json.str "t"), ("operation", Json.str "SET"),
    ("key", Json.str "a"), ("value", Json.num 1)]

/-- **C4 (counterexample to the claim as stated).** A WAL file whose first
line is a well-formed SET entry and whose second line is the valid JSON
document `{}` (valid JSON, not of `LogEntry` shape): the claim says `replay`
returns the first entry and skips the second silently; the code raises an
uncaught `TypeError` from `WALEntry(**{})`. -/
theorem C4_replay_raises_on_shape_error :
    WAL.replayLines [some sampleSetLine, some (Json.obj [])] = Except.error () := by
  rfl

/-- Witness for C4 (amended): a log with one good line, one undecodable line
(truncated tail) and another good line replays to the two good entries; a log
with a decodable but ill-shaped line aborts. -/
theorem C4_replay_skips_amended_witness :
    WAL.replayLines [some sampleSetLine, none] =
      Except.ok [⟨Json.str "t", Json.str "SET", Json.str "a", Json.num 1⟩]
    ∧ WAL.replayLines [none, some (Json.arr [])] = Except.error () :=
  ⟨by
    have h := (C4_replay_skips_amended [some sampleSetLine, none]).1 (by
      intro j hj
      simp only [List.mem_cons, List.not_mem_nil, or_false] at hj
      rcases hj with h1 | h1
      · injection h1 with h2
        subst h2
        decide
      · exact Option.noConfusion h1)
    simpa using h,
  (C4_replay_skips_amended [none, some (Json.arr [])]).2
    ⟨Json.arr [], by decide, by decide⟩⟩

/-! ## Consistent hash ring (`src/distributed/consistent_hash.py`)

`ConsistentHashRing` keeps a dict `{hash_value: node_id}` and the list
`sorted(ring.keys())`, recomputed after every mutation; the sorted list is
therefore modelled as a derived view of the dict.  The hash function
(`_hash`, `int(md5(key).hexdigest(), 16)`) is an opaque parameter
`hashFn : String → Nat` passed to every operation; properties of MD5 that a
claim depends on appear as hypotheses of that claim. -/

/-- The virtual-node key `f"{node_id}:{i}"`. -/
def virtualKey (node_id i : Nat) : String :=
  toString node_id ++ ":" ++ toString i

structure ConsistentHashRing where
  virtual_nodes : Nat
  ring : List (Nat × Nat)

namespace ConsistentHashRing

/-- `self.sorted_keys = sorted(self.ring.keys())`, recomputed after every
mutation — hence a derived view.  `insertionSort` returns the same ascending
list as Python's `sorted` on the (duplicate-free) key list. -/
def sortedKeys (r : ConsistentHashRing) : List Nat :=
  List.insertionSort (· ≤ ·) (r.ring.map Prod.fst)

/-- `add_node` (`consistent_hash.py:51-65`): insert the V virtual points. -/
def add_node (hashFn : String → Nat) (r : ConsistentHashRing) (node_id : Nat) :
    ConsistentHashRing :=
  { r with ring := ((List.range r.virtual_nodes).foldl
      (fun acc i => dictInsert acc (hashFn (virtualKey node_id i)) node_id) r.ring) }

/-- `__init__` (`consistent_hash.py:18-36`): `add_node` for each listed node. -/
def init (hashFn : String → Nat) (nodes : List Nat) (virtual_nodes : Nat) :
    ConsistentHashRing :=
  nodes.foldl (fun r n => r.add_node hashFn n) ⟨virtual_nodes, []⟩

/-- `remove_node` (`consistent_hash.py:67-80`): delete the V virtual points
(guarded: `if hash_value in self.ring`, a no-op when absent). -/
def remove_node (hashFn : String → Nat) (r : ConsistentHashRing) (node_id : Nat) :
    ConsistentHashRing :=
  { r with ring := ((List.range r.virtual_nodes).foldl
      (fun acc i => dictDelete acc (hashFn (virtualKey node_id i))) r.ring) }

/-- `bisect.bisect_right(a, x)` on a sorted list: the insertion point to the
right of existing entries, i.e. the number of elements `≤ x`. -/
def bisect_right (a : List Nat) (x : Nat) : Nat :=
  a.countP (fun h => decide (h ≤ x))

/-- `get_node` (`consistent_hash.py:82-107`): `ValueError` (`none`) on an
empty ring; otherwise index `bisect_right`, wrapping past the end to 0, and
read the owner from the dict. -/
def get_node (hashFn : String → Nat) (r : ConsistentHashRing) (key : String) :
    Option Nat :=
  if r.ring = [] then none
  else
    let hash_value := hashFn key
    let idx := bisect_right r.sortedKeys hash_value
    let idx' := if idx = r.sortedKeys.length then 0 else idx
    (r.sortedKeys[idx']?).bind (fun h => dictGet r.ring h)

/-- The loop of `get_nodes_for_replication` (`consistent_hash.py:137-146`):
walk the ring values in visit order, appending unseen physical node ids, and
stop as soon as `n` are gathered (the break is checked right after each
append). -/
def collectLoop (n : Nat) (nodes : List Nat) : List Nat → List Nat
  | [] => nodes
  | v :: rest =>
      let nodes' := if v ∈ nodes then nodes else nodes ++ [v]
      if nodes'.length = n then nodes' else collectLoop n nodes' rest

/-- `get_nodes_for_replication` (`consistent_hash.py:109-148`): `[]` on an
empty ring; otherwise visit positions `(idx + i) % len(sorted_keys)` for
`i ∈ [0, len)` and collect distinct owners via `collectLoop`.  (The `getD 0`
defaults are never reached: every visited index is in range and every sorted
key is a dict key.) -/
def get_nodes_for_replication (hashFn : String → Nat) (r : ConsistentHashRing)
    (key : String) (n : Nat) : List Nat :=
  if r.ring = [] then []
  else
    let hash_value := hashFn key
    let idx := bisect_right r.sortedKeys hash_value
    let L := r.sortedKeys.length
    let vals := (List.range L).map
      (fun i => (dictGet r.ring ((r.sortedKeys[(idx + i) % L]?).getD 0)).getD 0)
    collectLoop n [] vals

end ConsistentHashRing

/-! ### Characterization of `get_node` -/

theorem sorted_countP_lookup (x : Nat) :
    ∀ (l : List Nat), l.Sorted (· ≤ ·) →
      (l.countP (fun v => decide (v ≤ x)) = l.length ↔
        l.find? (fun v => decide (x < v)) = none)
      ∧ (l.countP (fun v => decide (v ≤ x)) < l.length →
          l[l.countP (fun v => decide (v ≤ x))]? =
            l.find? (fun v => decide (x < v))) := by
  intro l hl
  induction l with
  | nil => exact ⟨by simp, by simp⟩
  | cons v t ih =>
    rw [List.sorted_cons] at hl
    obtain ⟨hv, st⟩ := hl
    obtain ⟨iht1, iht2⟩ := ih st
    by_cases hvx : v ≤ x
    · have hnlt : ¬ x < v := not_lt.mpr hvx
      have hfind : List.find? (fun w => decide (x < w)) (v :: t) =
          List.find? (fun w => decide (x < w)) t :=
        List.find?_cons_of_neg _ (by simpa using hnlt)
      have hcount : List.countP (fun w => decide (w ≤ x)) (v :: t) =
          List.countP (fun w => decide (w ≤ x)) t + 1 := by
        rw [List.countP_cons, if_pos (by simpa using hvx)]
      constructor
      · rw [hfind, hcount, List.length_cons, Nat.add_right_cancel_iff]
        exact iht1
      · intro hlen
        rw [hcount] at hlen ⊢
        rw [hfind, List.getElem?_cons_succ]
        rw [List.length_cons] at hlen
        exact iht2 (by omega)
    · have hxv : x < v := not_le.mp hvx
      have ht0 : List.countP (fun w => decide (w ≤ x)) t = 0 := by
        rw [List.countP_eq_zero]
        intro a ha
        have hva := hv a ha
        simp only [decide_eq_true_eq]
        omega
      have hcount : List.countP (fun w => decide (w ≤ x)) (v :: t) = 0 := by
        rw [List.countP_cons, ht0, if_neg (by simpa using hvx)]
      have hfind : List.find? (fun w => decide (x < w)) (v :: t) = some v :=
        List.find?_cons_of_pos _ (by simpa using hxv)
      constructor
      · rw [hcount, hfind, List.length_cons]
        simp
      · intro _
        rw [hcount, hfind, List.getElem?_cons_zero]


namespace ConsistentHashRing

theorem sortedKeys_sorted (r : ConsistentHashRing) :
    r.sortedKeys.Sorted (· ≤ ·) :=
  List.sorted_insertionSort _ _

theorem sortedKeys_perm (r : ConsistentHashRing) :
    List.Perm r.sortedKeys (r.ring.map Prod.fst) :=
  List.perm_insertionSort _ _

theorem mem_sortedKeys {r : ConsistentHashRing} {h : Nat} :
    h ∈ r.sortedKeys ↔ h ∈ r.ring.map Prod.fst :=
  (sortedKeys_perm r).mem_iff

theorem sortedKeys_length (r : ConsistentHashRing) :
    r.sortedKeys.length = r.ring.length := by
  rw [(sortedKeys_perm r).length_eq, List.length_map]

end ConsistentHashRing

theorem dictGet_isSome_of_mem_keys {d : List (Nat × Nat)} {k : Nat}
    (h : k ∈ d.map Prod.fst) : ∃ v, dictGet d k = some v := by
  induction d with
  | nil => simp at h
  | cons p rest ih =>
    by_cases hp : p.1 = k
    · exact ⟨p.2, by simp [dictGet, hp]⟩
    · have : k ∈ rest.map Prod.fst := by
        rcases List.mem_map.mp h with ⟨q, hq, hqk⟩
        rcases List.mem_cons.mp hq with rfl | hq'
        · exact absurd hqk hp
        · exact List.mem_map.mpr ⟨q, hq', hqk⟩
      obtain ⟨v, hv⟩ := ih this
      exact ⟨v, by simp [dictGet, hp, hv]⟩

/-- The spec-side description of the lookup that `get_node` performs: the
first sorted ring hash *strictly greater* than the key's hash, wrapping to
the smallest ring hash when no hash is greater. -/
def ringSuccessor (sk : List Nat) (hv : Nat) : Option Nat :=
  match sk.find? (fun h => decide (hv < h)) with
  | some h => some h
  | none => sk.head?

theorem get_node_characterization (hashFn : String → Nat)
    (r : ConsistentHashRing) (key : String) (hne : r.ring ≠ []) :
    ConsistentHashRing.get_node hashFn r key =
      (ringSuccessor r.sortedKeys (hashFn key)).bind (fun h => dictGet r.ring h) := by
  unfold ConsistentHashRing.get_node ConsistentHashRing.bisect_right
  rw [if_neg hne]
  obtain ⟨h1, h2⟩ :=
    sorted_countP_lookup (hashFn key) r.sortedKeys (ConsistentHashRing.sortedKeys_sorted r)
  by_cases hc : r.sortedKeys.countP (fun h => decide (h ≤ hashFn key)) =
      r.sortedKeys.length
  · have hfind : r.sortedKeys.find? (fun h => decide (hashFn key < h)) = none :=
      h1.mp hc
    simp only [ringSuccessor, hfind]
    rw [if_pos hc, ← List.head?_eq_getElem?]
  · have hlt : r.sortedKeys.countP (fun h => decide (h ≤ hashFn key)) <
        r.sortedKeys.length :=
      lt_of_le_of_ne (List.countP_le_length _) hc
    have hget := h2 hlt
    cases hfind : r.sortedKeys.find? (fun h => decide (hashFn key < h)) with
    | none => exact absurd (h1.mpr hfind) hc
    | some y =>
      simp only [ringSuccessor, hfind]
      rw [if_neg hc, hget, hfind]

theorem ringSuccessor_mem {sk : List Nat} (hv : Nat) (hne : sk ≠ []) :
    ∃ h, ringSuccessor sk hv = some h ∧ h ∈ sk := by
  unfold ringSuccessor
  cases hfind : sk.find? (fun h => decide (hv < h)) with
  | some y => exact ⟨y, rfl, List.mem_of_find?_eq_some hfind⟩
  | none =>
    cases sk with
    | nil => exact absurd rfl hne
    | cons v t => exact ⟨v, rfl, List.mem_cons_self _ _⟩

/-- **C3 (amended).** For every hash function, ring and key: on an empty ring
`get_node` fails (`ValueError` — the spec's `EmptyRing`); on a non-empty ring
it succeeds and returns the owner of the first ring hash *strictly greater*
than the key's hash, wrapping to the smallest ring hash when no ring hash
exceeds the target.  In particular a key whose hash exactly equals a ring
point's hash is routed to that point's clockwise successor (`bisect_right`
places the insertion point after equal entries), not to the equal point
itself. -/
theorem C3_get_node_amended (hashFn : String → Nat) (r : ConsistentHashRing)
    (key : String) :
    (r.ring = [] → ConsistentHashRing.get_node hashFn r key = none)
    ∧ (r.ring ≠ [] →
        ConsistentHashRing.get_node hashFn r key =
          (ringSuccessor r.sortedKeys (hashFn key)).bind (fun h => dictGet r.ring h)
        ∧ (ConsistentHashRing.get_node hashFn r key).isSome = true) := by
  constructor
  · intro h
    unfold ConsistentHashRing.get_node
    rw [if_pos h]
  · intro hne
    refine ⟨get_node_characterization hashFn r key hne, ?_⟩
    rw [get_node_characterization hashFn r key hne]
    have hsk : r.sortedKeys ≠ [] := by
      intro hnil
      have := ConsistentHashRing.sortedKeys_length r
      rw [hnil] at this
      cases hr : r.ring with
      | nil => exact hne hr
      | cons a t => rw [hr] at this; simp at this
    obtain ⟨h, hsucc, hmem⟩ := ringSuccessor_mem (hashFn key) hsk
    obtain ⟨v, hv⟩ := dictGet_isSome_of_mem_keys
      (ConsistentHashRing.mem_sortedKeys.mp hmem)
    rw [hsucc]
    simp [hv]

/-- A concrete hash table used by the ring examples: two virtual points at
hashes 10 (node 1) and 20 (node 2); key `"k"` hashes exactly onto ring point
10, key `"j"` strictly below it. -/
def exHash : String → Nat := fun s =>
  if s = "1:0" then 10 else if s = "2:0" then 20
  else if s = "k" then 10 else if s = "j" then 5 else 0

/-- The ring `ConsistentHashRing([1, 2], virtual_nodes=1)` under `exHash`. -/
def exRing : ConsistentHashRing := ConsistentHashRing.init exHash [1, 2] 1

/-- **C3 (counterexample to the claim as stated).** Key `"k"` hashes to 10,
which is exactly the ring hash owned by node 1; the claim says `get_node`
returns the node owning that very point (node 1), but `bisect_right` places
the target after the equal entry and `get_node` returns node 2. -/
theorem C3_equal_hash_goes_to_successor :
    exHash "k" = 10
    ∧ dictGet exRing.ring 10 = some 1
    ∧ ConsistentHashRing.get_node exHash exRing "k" = some 2 := by
  decide

/-- Witness for C3 (amended) on the concrete ring and key `"j"`. -/
theorem C3_get_node_amended_witness :
    exRing.ring ≠ []
    ∧ ConsistentHashRing.get_node exHash exRing "j" =
        (ringSuccessor exRing.sortedKeys (exHash "j")).bind
          (fun h => dictGet exRing.ring h)
    ∧ (ConsistentHashRing.get_node exHash exRing "j").isSome = true :=
  ⟨by decide, ((C3_get_node_amended exHash exRing "j").2 (by decide)).1,
    ((C3_get_node_amended exHash exRing "j").2 (by decide)).2⟩

/-! ### The replication walk (`get_nodes_for_replication`) -/

/-- Deduplication keeping first occurrences — the order in which
`collectLoop` discovers distinct node ids. -/
def firstDedup : List Nat → List Nat
  | [] => []
  | x :: xs => x :: (firstDedup xs).filter (fun y => decide (y ≠ x))

theorem mem_firstDedup {y : Nat} : ∀ {l : List Nat}, y ∈ firstDedup l ↔ y ∈ l
  | [] => Iff.rfl
  | x :: xs => by
    simp only [firstDedup, List.mem_cons, List.mem_filter,
      decide_eq_true_eq]
    by_cases hyx : y = x
    · simp [hyx]
    · simp only [hyx, false_or]
      rw [and_iff_left hyx, mem_firstDedup]

theorem firstDedup_nodup : ∀ (l : List Nat), (firstDedup l).Nodup
  | [] => List.nodup_nil
  | x :: xs => by
    simp only [firstDedup, List.nodup_cons]
    constructor
    · intro hx
      have := (List.mem_filter.mp hx).2
      simp at this
    · exact (firstDedup_nodup xs).filter _

theorem firstDedup_filter (p : Nat → Bool) :
    ∀ (l : List Nat), firstDedup (l.filter p) = (firstDedup l).filter p
  | [] => rfl
  | x :: xs => by
    by_cases hpx : p x = true
    · rw [List.filter_cons_of_pos hpx]
      simp only [firstDedup, List.filter_cons_of_pos hpx,
        firstDedup_filter p xs, List.filter_filter]
      congr 1
      exact List.filter_congr (fun a _ => by rw [Bool.and_comm])
    · rw [List.filter_cons_of_neg hpx]
      simp only [firstDedup, List.filter_cons_of_neg hpx,
        firstDedup_filter p xs, List.filter_filter]
      refine List.filter_congr (fun a _ => ?_)
      by_cases hax : a = x
      · subst hax
        simp [hpx]
      · simp [hax]

theorem length_filter_ne_of_nodup_mem {x : Nat} :
    ∀ {l : List Nat}, l.Nodup → x ∈ l →
      (l.filter (fun y => decide (y ≠ x))).length = l.length - 1 := by
  intro l
  induction l with
  | nil => intro _ hx; simp at hx
  | cons a t ih =>
    intro hnd hx
    rw [List.nodup_cons] at hnd
    rcases List.mem_cons.mp hx with rfl | hxt
    · rw [List.filter_cons_of_neg (by simp)]
      rw [List.filter_eq_self.mpr (fun y hy => by
        simp only [decide_eq_true_eq]
        intro hyx
        exact hnd.1 (hyx ▸ hy))]
      simp
    · have hax : a ≠ x := fun hax => hnd.1 (hax ▸ hxt)
      rw [List.filter_cons_of_pos (by simpa using hax)]
      rw [List.length_cons, ih hnd.2 hxt, List.length_cons]
      have : 1 ≤ t.length := List.length_pos.mpr (List.ne_nil_of_mem hxt)
      omega

theorem length_firstDedup : ∀ (l : List Nat),
    (firstDedup l).length = l.toFinset.card
  | [] => rfl
  | x :: xs => by
    simp only [firstDedup, List.length_cons, List.toFinset_cons]
    by_cases hx : x ∈ xs
    · have hxfd : x ∈ firstDedup xs := mem_firstDedup.mpr hx
      rw [length_filter_ne_of_nodup_mem (firstDedup_nodup xs) hxfd,
        length_firstDedup xs]
      have hcard : xs.toFinset.card ≠ 0 := by
        refine Finset.card_ne_zero_of_mem (a := x) ?_
        exact List.mem_toFinset.mpr hx
      rw [Finset.insert_eq_self.mpr (List.mem_toFinset.mpr hx)]
      omega
    · rw [List.filter_eq_self.mpr (fun y hy => by
        simp only [decide_eq_true_eq]
        intro hyx
        exact hx (hyx ▸ mem_firstDedup.mp hy))]
      rw [length_firstDedup xs,
        Finset.card_insert_of_not_mem (fun hc => hx (List.mem_toFinset.mp hc))]

theorem collectLoop_eq (n : Nat) :
    ∀ (vals acc : List Nat), acc.length < n →
      ConsistentHashRing.collectLoop n acc vals =
        acc ++ (firstDedup (vals.filter
          (fun v => decide (v ∉ acc)))).take (n - acc.length) := by
  intro vals
  induction vals with
  | nil => intro acc _; simp [ConsistentHashRing.collectLoop, firstDedup]
  | cons v rest ih =>
    intro acc hacc
    unfold ConsistentHashRing.collectLoop
    by_cases hv : v ∈ acc
    · simp only [if_pos hv, if_neg (Nat.ne_of_lt hacc)]
      rw [ih acc hacc, List.filter_cons_of_neg (by simpa using hv)]
    · simp only [if_neg hv]
      rw [List.filter_cons_of_pos (by simpa using hv)]
      have hlen : (acc ++ [v]).length = acc.length + 1 := by simp
      have htake : n - acc.length = (n - (acc.length + 1)) + 1 := by omega
      by_cases hfull : acc.length + 1 = n
      · rw [if_pos (by rw [hlen, hfull])]
        simp only [firstDedup, htake, List.take_succ_cons]
        have : n - (acc.length + 1) = 0 := by omega
        rw [this, List.take_zero]
      · rw [if_neg (by rw [hlen]; exact hfull)]
        have hlt : (acc ++ [v]).length < n := by rw [hlen]; omega
        rw [ih (acc ++ [v]) hlt]
        have hfilter : rest.filter (fun a => decide (a ∉ acc ++ [v])) =
            (rest.filter (fun a => decide (a ∉ acc))).filter
              (fun a => decide (a ≠ v)) := by
          rw [List.filter_filter]
          refine (List.filter_congr (fun a _ => ?_)).symm
          simp only [List.mem_append, List.mem_singleton, not_or]
          rw [Bool.decide_and]
          exact Bool.and_comm _ _
        rw [hfilter, firstDedup_filter]
        simp only [firstDedup, htake, List.take_succ_cons, hlen]
        simp [List.append_assoc]

theorem map_dictGet_keys : ∀ (d : List (Nat × Nat)), (d.map Prod.fst).Nodup →
    (d.map Prod.fst).map (fun k => (dictGet d k).getD 0) = d.map Prod.snd
  | [], _ => rfl
  | p :: rest, hnd => by
    rw [List.map_cons, List.map_cons, List.map_cons]
    rw [List.map_cons, List.nodup_cons] at hnd
    congr 1
    · simp [dictGet]
    · have hmap : (rest.map Prod.fst).map (fun k => (dictGet (p :: rest) k).getD 0)
          = (rest.map Prod.fst).map (fun k => (dictGet rest k).getD 0) :=
        List.map_congr_left (fun k hk => by
          have hkp : ¬ p.1 = k := fun hpk => hnd.1 (hpk ▸ hk)
          simp [dictGet, hkp])
      rw [hmap]
      exact map_dictGet_keys rest hnd.2

theorem vals_eq_rotate_map (r : ConsistentHashRing) (idx : Nat)
    (hL : 0 < r.sortedKeys.length) :
    (List.range r.sortedKeys.length).map
      (fun i => (dictGet r.ring
        ((r.sortedKeys[(idx + i) % r.sortedKeys.length]?).getD 0)).getD 0)
    = (r.sortedKeys.rotate idx).map (fun h => (dictGet r.ring h).getD 0) := by
  apply List.ext_getElem
  · simp [List.length_rotate]
  · intro i h1 h2
    simp only [List.getElem_map, List.getElem_range]
    rw [List.getElem_rotate, Nat.add_comm idx i]
    have hmod : (i + idx) % r.sortedKeys.length < r.sortedKeys.length :=
      Nat.mod_lt _ hL
    rw [List.getElem?_eq_getElem hmod]
    simp only [Option.getD_some]

theorem gnfr_eq_take (hashFn : String → Nat) (r : ConsistentHashRing)
    (key : String) (n : Nat) (hne : r.ring ≠ []) (hn : 1 ≤ n) :
    ConsistentHashRing.get_nodes_for_replication hashFn r key n =
      (firstDedup ((r.sortedKeys.rotate
        (ConsistentHashRing.bisect_right r.sortedKeys (hashFn key))).map
          (fun h => (dictGet r.ring h).getD 0))).take n := by
  unfold ConsistentHashRing.get_nodes_for_replication
  rw [if_neg hne]
  have hL : 0 < r.sortedKeys.length := by
    rw [ConsistentHashRing.sortedKeys_length]
    exact List.length_pos.mpr hne
  rw [collectLoop_eq n _ [] (by simpa using hn)]
  rw [List.filter_eq_self.mpr (fun a _ => by simp)]
  rw [vals_eq_rotate_map r _ hL]
  simp

theorem rotate_map_head (hashFn : String → Nat) (r : ConsistentHashRing)
    (key : String) (hne : r.ring ≠ []) :
    ((r.sortedKeys.rotate
        (ConsistentHashRing.bisect_right r.sortedKeys (hashFn key))).map
      (fun h => (dictGet r.ring h).getD 0)).head? =
      ConsistentHashRing.get_node hashFn r key := by
  have hL : 0 < r.sortedKeys.length := by
    rw [ConsistentHashRing.sortedKeys_length]
    exact List.length_pos.mpr hne
  have hidxle : ConsistentHashRing.bisect_right r.sortedKeys (hashFn key) ≤
      r.sortedKeys.length := List.countP_le_length _
  have hmod : ConsistentHashRing.bisect_right r.sortedKeys (hashFn key) %
      r.sortedKeys.length < r.sortedKeys.length := Nat.mod_lt _ hL
  have hidx' : (if ConsistentHashRing.bisect_right r.sortedKeys (hashFn key) =
        r.sortedKeys.length then 0
      else ConsistentHashRing.bisect_right r.sortedKeys (hashFn key)) =
      ConsistentHashRing.bisect_right r.sortedKeys (hashFn key) %
        r.sortedKeys.length := by
    by_cases hc : ConsistentHashRing.bisect_right r.sortedKeys (hashFn key) =
        r.sortedKeys.length
    · rw [if_pos hc, hc, Nat.mod_self]
    · rw [if_neg hc, Nat.mod_eq_of_lt (lt_of_le_of_ne hidxle hc)]
  obtain ⟨w, hw⟩ := dictGet_isSome_of_mem_keys
    (ConsistentHashRing.mem_sortedKeys.mp
      (List.getElem_mem (l := r.sortedKeys)
        (n := ConsistentHashRing.bisect_right r.sortedKeys (hashFn key) %
          r.sortedKeys.length) (h := hmod)))
  rw [List.head?_eq_getElem?, List.getElem?_map, List.getElem?_rotate hL,
    Nat.zero_add, List.getElem?_eq_getElem hmod]
  unfold ConsistentHashRing.get_node
  rw [if_neg hne]
  simp only [hidx', List.getElem?_eq_getElem hmod, Option.map_some',
    Option.some_bind, hw, Option.getD_some]

theorem gnfr_spec (hashFn : String → Nat) (r : ConsistentHashRing)
    (key : String) (n : Nat) (hne : r.ring ≠ [])
    (hnk : (r.ring.map Prod.fst).Nodup) (hn : 1 ≤ n) :
    (ConsistentHashRing.get_nodes_for_replication hashFn r key n).Nodup
    ∧ (ConsistentHashRing.get_nodes_for_replication hashFn r key n).head? =
        ConsistentHashRing.get_node hashFn r key
    ∧ (ConsistentHashRing.get_nodes_for_replication hashFn r key n).length =
        min n ((r.ring.map Prod.snd).toFinset.card) := by
  rw [gnfr_eq_take hashFn r key n hne hn]
  have hperm : List.Perm
      ((r.sortedKeys.rotate
        (ConsistentHashRing.bisect_right r.sortedKeys (hashFn key))).map
          (fun h => (dictGet r.ring h).getD 0))
      (r.ring.map Prod.snd) := by
    have h3 := ((List.rotate_perm r.sortedKeys
      (ConsistentHashRing.bisect_right r.sortedKeys (hashFn key))).trans
        (ConsistentHashRing.sortedKeys_perm r)).map
      (fun h => (dictGet r.ring h).getD 0)
    rw [map_dictGet_keys r.ring hnk] at h3
    exact h3
  refine ⟨(List.take_sublist _ _).nodup (firstDedup_nodup _), ?_, ?_⟩
  · rw [← rotate_map_head hashFn r key hne]
    have hL : 0 < r.sortedKeys.length := by
      rw [ConsistentHashRing.sortedKeys_length]
      exact List.length_pos.mpr hne
    have hvals_ne : ((r.sortedKeys.rotate
        (ConsistentHashRing.bisect_right r.sortedKeys (hashFn key))).map
          (fun h => (dictGet r.ring h).getD 0)) ≠ [] := by
      intro hnil
      have := congrArg List.length hnil
      simp only [List.length_map, List.length_rotate, List.length_nil] at this
      omega
    obtain ⟨v, vs, hv⟩ := List.exists_cons_of_ne_nil hvals_ne
    obtain ⟨m, hm⟩ := Nat.exists_eq_add_of_le hn
    rw [hv, hm]
    simp [firstDedup, Nat.add_comm 1 m]
  · rw [List.length_take, length_firstDedup,
      List.toFinset_eq_of_perm _ _ hperm]

/-- **C8.** For every non-empty ring (hash table with pairwise distinct
stored point hashes), key `k` and `n ≥ 1`, `get_nodes_for_replication(k, n)`
starts at the `get_node` position and walks clockwise collecting physical
node ids: the returned list has pairwise distinct elements, its first
element is `get_node(k)`, and its length is `min(n, number of distinct
physical nodes in the ring)`. -/
theorem C8_replication_list (hashFn : String → Nat) (r : ConsistentHashRing)
    (key : String) (n : Nat) (hne : r.ring ≠ [])
    (hnk : (r.ring.map Prod.fst).Nodup) (hn : 1 ≤ n) :
    (ConsistentHashRing.get_nodes_for_replication hashFn r key n).Nodup
    ∧ (ConsistentHashRing.get_nodes_for_replication hashFn r key n).head? =
        ConsistentHashRing.get_node hashFn r key
    ∧ (ConsistentHashRing.get_nodes_for_replication hashFn r key n).length =
        min n ((r.ring.map Prod.snd).toFinset.card) :=
  gnfr_spec hashFn r key n hne hnk hn

/-- Witness for C8 on the concrete two-node ring: `n = 2`, key `"j"`. -/
theorem C8_replication_list_witness :
    (ConsistentHashRing.get_nodes_for_replication exHash exRing "j" 2).Nodup
    ∧ (ConsistentHashRing.get_nodes_for_replication exHash exRing "j" 2).head? =
        ConsistentHashRing.get_node exHash exRing "j"
    ∧ (ConsistentHashRing.get_nodes_for_replication exHash exRing "j" 2).length =
        min 2 ((exRing.ring.map Prod.snd).toFinset.card) :=
  C8_replication_list exHash exRing "j" 2 (by decide) (by decide) (by decide)

/-! ### `remove_node` and claim C7 -/

theorem foldl_dictDelete_filter :
    ∀ (ks : List Nat) (d : List (Nat × Nat)),
      ks.foldl dictDelete d = d.filter (fun p => decide (p.1 ∉ ks))
  | [], d => by
    rw [List.foldl_nil, List.filter_eq_self.mpr (fun a _ => by simp)]
  | k :: ks, d => by
    rw [List.foldl_cons, foldl_dictDelete_filter ks (dictDelete d k)]
    unfold dictDelete
    rw [List.filter_filter]
    refine List.filter_congr (fun p _ => ?_)
    simp only [List.mem_cons, not_or]
    rw [Bool.decide_and]
    exact Bool.and_comm _ _

theorem remove_node_ring (hashFn : String → Nat) (r : ConsistentHashRing)
    (node_id : Nat) :
    (ConsistentHashRing.remove_node hashFn r node_id).ring =
      r.ring.filter (fun p => decide (p.1 ∉
        (List.range r.virtual_nodes).map (fun i => hashFn (virtualKey node_id i)))) := by
  unfold ConsistentHashRing.remove_node
  rw [← List.foldl_map (fun i => hashFn (virtualKey node_id i)) dictDelete,
    foldl_dictDelete_filter]

theorem map_fst_filter (q : Nat → Bool) :
    ∀ (l : List (Nat × Nat)),
      (l.filter (fun p => q p.1)).map Prod.fst = (l.map Prod.fst).filter q
  | [] => rfl
  | p :: rest => by
    simp only [List.filter_cons, List.map_cons]
    by_cases hq : q p.1 = true
    · rw [if_pos hq, if_pos hq, List.map_cons, map_fst_filter q rest]
    · rw [if_neg hq, if_neg hq, map_fst_filter q rest]

theorem mem_keys_of_dictGet_eq_some {d : List (Nat × Nat)} {k v : Nat}
    (h : dictGet d k = some v) : k ∈ d.map Prod.fst := by
  induction d with
  | nil => simp [dictGet] at h
  | cons p rest ih =>
    rw [List.map_cons]
    by_cases hp : p.1 = k
    · exact hp ▸ List.mem_cons_self _ _
    · rw [dictGet, if_neg hp] at h
      exact List.mem_cons_of_mem _ (ih h)

theorem dictGet_filter_of_true {q : Nat → Bool} {k : Nat} (hq : q k = true) :
    ∀ (d : List (Nat × Nat)),
      dictGet (d.filter (fun p => q p.1)) k = dictGet d k
  | [] => rfl
  | p :: rest => by
    simp only [List.filter_cons]
    by_cases hp : p.1 = k
    · rw [if_pos (by rw [hp]; exact hq)]
      rw [dictGet, dictGet, if_pos hp, if_pos hp]
    · by_cases hqp : q p.1 = true
      · rw [if_pos hqp, dictGet, dictGet, if_neg hp, if_neg hp,
          dictGet_filter_of_true hq rest]
      · rw [if_neg hqp, dictGet, if_neg hp,
          dictGet_filter_of_true hq rest]

theorem sorted_find_gt_iff {l : List Nat} (hl : l.Sorted (· ≤ ·)) {x y : Nat} :
    l.find? (fun v => decide (x < v)) = some y ↔
      y ∈ l ∧ x < y ∧ ∀ z ∈ l, x < z → y ≤ z := by
  induction l with
  | nil => simp
  | cons v t ih =>
    rw [List.sorted_cons] at hl
    obtain ⟨hv, st⟩ := hl
    by_cases hxv : x < v
    · rw [List.find?_cons_of_pos _ (by simpa using hxv)]
      constructor
      · intro h
        injection h with h
        subst h
        exact ⟨List.mem_cons_self _ _, hxv, fun z hz _ => by
          rcases List.mem_cons.mp hz with rfl | hz'
          · exact le_refl _
          · exact hv z hz'⟩
      · rintro ⟨hmem, hxy, hmin⟩
        have h1 : y ≤ v := hmin v (List.mem_cons_self _ _) hxv
        have h2 : v ≤ y := by
          rcases List.mem_cons.mp hmem with rfl | hy'
          · exact le_refl _
          · exact hv y hy'
        rw [le_antisymm h1 h2]
    · rw [List.find?_cons_of_neg _ (by simpa using hxv)]
      rw [ih st]
      constructor
      · rintro ⟨hmem, hxy, hmin⟩
        refine ⟨List.mem_cons_of_mem _ hmem, hxy, fun z hz hxz => ?_⟩
        rcases List.mem_cons.mp hz with rfl | hz'
        · exact absurd hxz hxv
        · exact hmin z hz' hxz
      · rintro ⟨hmem, hxy, hmin⟩
        have hyv : y ≠ v := fun hyv => hxv (hyv ▸ hxy)
        rcases List.mem_cons.mp hmem with rfl | hy'
        · exact absurd rfl hyv
        · exact ⟨hy', hxy, fun z hz hxz => hmin z (List.mem_cons_of_mem _ hz) hxz⟩

theorem sorted_head_iff {l : List Nat} (hl : l.Sorted (· ≤ ·)) {y : Nat} :
    l.head? = some y ↔ y ∈ l ∧ ∀ z ∈ l, y ≤ z := by
  cases l with
  | nil => simp
  | cons v t =>
    rw [List.sorted_cons] at hl
    obtain ⟨hv, _⟩ := hl
    rw [List.head?_cons]
    constructor
    · intro h
      injection h with h
      subst h
      exact ⟨List.mem_cons_self _ _, fun z hz => by
        rcases List.mem_cons.mp hz with rfl | hz'
        · exact le_refl _
        · exact hv z hz'⟩
    · rintro ⟨hmem, hmin⟩
      have h1 : y ≤ v := hmin v (List.mem_cons_self _ _)
      have h2 : v ≤ y := by
        rcases List.mem_cons.mp hmem with rfl | hy'
        · exact le_refl _
        · exact hv y hy'
      rw [le_antisymm h2 h1]

/-- **C7.** For every ring containing node `N` and key `key` whose primary is
some other node `M`, removing `N` leaves `get_node(key) = M`: removal changes
ownership for exactly the keys whose primary was the removed node.  The
hypothesis says that none of `N`'s virtual-point hashes collides with a
point owned by a different node — true of MD5 on the virtual keys in actual
operation (a collision would make `remove_node` delete another node's
point). -/
theorem C7_remove_node_preserves_other_keys (hashFn : String → Nat)
    (r : ConsistentHashRing) (N M : Nat) (key : String)
    (hcoll : ∀ i, i < r.virtual_nodes → ∀ v,
      dictGet r.ring (hashFn (virtualKey N i)) = some v → v = N)
    (hM : ConsistentHashRing.get_node hashFn r key = some M) (hMN : M ≠ N) :
    ConsistentHashRing.get_node hashFn
      (ConsistentHashRing.remove_node hashFn r N) key = some M := by
  have hne : r.ring ≠ [] := by
    intro hnil
    unfold ConsistentHashRing.get_node at hM
    rw [if_pos hnil] at hM
    exact Option.noConfusion hM
  rw [get_node_characterization hashFn r key hne] at hM
  obtain ⟨hp, hsucc, hlook⟩ := Option.bind_eq_some.mp hM
  have hpD : hp ∉ (List.range r.virtual_nodes).map
      (fun i => hashFn (virtualKey N i)) := by
    intro hmem
    obtain ⟨i, hi, hie⟩ := List.mem_map.mp hmem
    exact hMN (hcoll i (List.mem_range.mp hi) M (by rw [hie]; exact hlook))
  have hring' := remove_node_ring hashFn r N
  have hkeys' : (ConsistentHashRing.remove_node hashFn r N).ring.map Prod.fst =
      (r.ring.map Prod.fst).filter (fun h => decide (h ∉
        (List.range r.virtual_nodes).map (fun i => hashFn (virtualKey N i)))) := by
    rw [hring']
    exact map_fst_filter (fun h => decide (h ∉
      (List.range r.virtual_nodes).map (fun i => hashFn (virtualKey N i)))) r.ring
  have hpkeys : hp ∈ r.ring.map Prod.fst := mem_keys_of_dictGet_eq_some hlook
  have hpkeys' : hp ∈ (ConsistentHashRing.remove_node hashFn r N).ring.map Prod.fst := by
    rw [hkeys']
    exact List.mem_filter.mpr ⟨hpkeys, by simpa using hpD⟩
  have hne' : (ConsistentHashRing.remove_node hashFn r N).ring ≠ [] := by
    intro hnil
    rw [hnil] at hpkeys'
    simp at hpkeys'
  have hmemsk' : ∀ z, z ∈ (ConsistentHashRing.remove_node hashFn r N).sortedKeys ↔
      z ∈ r.ring.map Prod.fst ∧ z ∉ (List.range r.virtual_nodes).map
        (fun i => hashFn (virtualKey N i)) := by
    intro z
    rw [ConsistentHashRing.mem_sortedKeys, hkeys', List.mem_filter]
    simp
  have hmemsk : ∀ z, z ∈ r.sortedKeys ↔ z ∈ r.ring.map Prod.fst :=
    fun z => ConsistentHashRing.mem_sortedKeys
  rw [get_node_characterization hashFn _ key hne']
  have hlook' : dictGet (ConsistentHashRing.remove_node hashFn r N).ring hp = some M := by
    rw [hring']
    exact (dictGet_filter_of_true
      (q := fun h => decide (h ∉
        (List.range r.virtual_nodes).map (fun i => hashFn (virtualKey N i))))
      (by simpa using hpD) r.ring).trans hlook
  have hsorted := ConsistentHashRing.sortedKeys_sorted r
  have hsorted' := ConsistentHashRing.sortedKeys_sorted
    (ConsistentHashRing.remove_node hashFn r N)
  unfold ringSuccessor at hsucc ⊢
  cases hfind : r.sortedKeys.find? (fun h => decide (hashFn key < h)) with
  | some y =>
    rw [hfind] at hsucc
    have hyp : y = hp := Option.some.inj hsucc
    rw [hyp] at hfind
    obtain ⟨hymem, hxy, hymin⟩ := (sorted_find_gt_iff hsorted).mp hfind
    have hfind' : (ConsistentHashRing.remove_node hashFn r N).sortedKeys.find?
        (fun h => decide (hashFn key < h)) = some hp := by
      rw [sorted_find_gt_iff hsorted']
      refine ⟨(hmemsk' hp).mpr ⟨(hmemsk hp).mp hymem, hpD⟩, hxy, ?_⟩
      intro z hz hxz
      exact hymin z ((hmemsk z).mpr ((hmemsk' z).mp hz).1) hxz
    rw [hfind']
    simpa using hlook'
  | none =>
    rw [hfind] at hsucc
    obtain ⟨hymem, hymin⟩ := (sorted_head_iff hsorted).mp hsucc
    have hfind' : (ConsistentHashRing.remove_node hashFn r N).sortedKeys.find?
        (fun h => decide (hashFn key < h)) = none := by
      rw [List.find?_eq_none]
      intro z hz
      have hzsk : z ∈ r.sortedKeys :=
        (hmemsk z).mpr ((hmemsk' z).mp hz).1
      have := List.find?_eq_none.mp hfind z hzsk
      simpa using this
    have hhead' : (ConsistentHashRing.remove_node hashFn r N).sortedKeys.head?
        = some hp := by
      rw [sorted_head_iff hsorted']
      refine ⟨(hmemsk' hp).mpr ⟨(hmemsk hp).mp hymem, hpD⟩, ?_⟩
      intro z hz
      exact hymin z ((hmemsk z).mpr ((hmemsk' z).mp hz).1)
    rw [hfind', hhead']
    simpa using hlook'

/-- Witness for C7: removing node 1 from the concrete two-node ring leaves the
key `"k"` (owned by node 2) on node 2. -/
theorem C7_remove_node_preserves_other_keys_witness :
    ConsistentHashRing.get_node exHash
      (ConsistentHashRing.remove_node exHash exRing 1) "k" = some 2 :=
  C7_remove_node_preserves_other_keys exHash exRing 1 2 "k"
    (by
      intro i hi v hv
      have hi0 : i = 0 := by
        have : exRing.virtual_nodes = 1 := by decide
        omega
      subst hi0
      have h1 : dictGet exRing.ring (exHash (virtualKey 1 0)) = some 1 := by decide
      rw [h1] at hv
      injection hv with hv
      exact hv.symm)
    (by decide) (by decide)

/-! ## Gateway routing (`src/distributed/gateway.py`)

The `set_key` and `delete_key` endpoints are routing decisions over the
current hash ring and the current set of healthy node ids (the health
monitor's `MembershipView`); the decision logic is pure and is modelled as a
function of those two inputs.  Every failure inside the endpoint's `try`
block — including the endpoint's own `HTTPException(503)` — is caught by the
trailing `except Exception` clause and re-raised as `HTTPException(500)`
(unlike `get_key`, these endpoints have no `except HTTPException: raise`
clause), so the client observes 500, never 503, from these two endpoints. -/

/-- What the client observes from a gateway write endpoint: a request
forwarded to a node, HTTP 503, or HTTP 500. -/
inductive RouteResult where
  | forwarded (node_id : Nat)
  | unavailable
  | internalError
deriving DecidableEq

/-- The routing decision of `set_key` (`gateway.py:93-135`): primary via
`get_node` (`ValueError` on an empty ring → generic handler → 500); if the
primary is unhealthy take `get_nodes_for_replication(key, 2)` and forward to
its second element — with no health check on it — when the list has more
than one element, else raise 503, which the generic handler converts to
500. -/
def Gateway.set_route (hashFn : String → Nat) (ring : ConsistentHashRing)
    (healthy : List Nat) (key : String) : RouteResult :=
  match ConsistentHashRing.get_node hashFn ring key with
  | none => RouteResult.internalError
  | some node_id =>
      if node_id ∈ healthy then RouteResult.forwarded node_id
      else
        let replica_nodes :=
          ConsistentHashRing.get_nodes_for_replication hashFn ring key 2
        if 1 < replica_nodes.length then
          RouteResult.forwarded ((replica_nodes[1]?).getD 0)
        else
          RouteResult.internalError

/-- The routing decision of `delete_key` (`gateway.py:177-203`): primary via
`get_node`; when the primary is unhealthy the endpoint raises 503 at once —
it never consults the replication list — and the generic handler converts
the 503 to 500. -/
def Gateway.delete_route (hashFn : String → Nat) (ring : ConsistentHashRing)
    (healthy : List Nat) (key : String) : RouteResult :=
  match ConsistentHashRing.get_node hashFn ring key with
  | none => RouteResult.internalError
  | some node_id =>
      if node_id ∈ healthy then RouteResult.forwarded node_id
      else RouteResult.internalError

/-- **C2 (amended).** For every ring, healthy set and key with primary `p =
get_node(key)`: a SET or DELETE with healthy primary is forwarded to `p`.
When `p` is unhealthy: DELETE never walks the replication list and fails
(HTTP 500 — the endpoint's 503 is swallowed by its own generic handler); a
SET is forwarded to the second element of `get_nodes_for_replication(key,
2)` — a node distinct from `p` but *not* checked for health — whenever the
ring holds at least two distinct physical nodes, and fails (500, not 503)
when it does not. -/
theorem C2_gateway_routing_amended (hashFn : String → Nat)
    (r : ConsistentHashRing) (healthy : List Nat) (key : String) (p : Nat)
    (hne : r.ring ≠ []) (hnk : (r.ring.map Prod.fst).Nodup)
    (hp : ConsistentHashRing.get_node hashFn r key = some p) :
    (p ∈ healthy →
      Gateway.set_route hashFn r healthy key = RouteResult.forwarded p
      ∧ Gateway.delete_route hashFn r healthy key = RouteResult.forwarded p)
    ∧ (p ∉ healthy →
        Gateway.delete_route hashFn r healthy key = RouteResult.internalError)
    ∧ (p ∉ healthy → 2 ≤ (r.ring.map Prod.snd).toFinset.card →
        ∃ q, (ConsistentHashRing.get_nodes_for_replication hashFn r key 2)[1]?
            = some q
          ∧ q ≠ p
          ∧ Gateway.set_route hashFn r healthy key = RouteResult.forwarded q)
    ∧ (p ∉ healthy → (r.ring.map Prod.snd).toFinset.card < 2 →
        Gateway.set_route hashFn r healthy key = RouteResult.internalError) := by
  obtain ⟨hnodup, hhead, hlen⟩ := gnfr_spec hashFn r key 2 hne hnk (by omega)
  refine ⟨?_, ?_, ?_, ?_⟩
  · intro hph
    constructor
    · simp only [Gateway.set_route, hp]
      rw [if_pos hph]
    · simp only [Gateway.delete_route, hp]
      rw [if_pos hph]
  · intro hph
    simp only [Gateway.delete_route, hp]
    rw [if_neg hph]
  · intro hph hcard
    have hlen2 : (ConsistentHashRing.get_nodes_for_replication hashFn r key 2).length = 2 := by
      omega
    obtain ⟨a, b, hab⟩ := List.length_eq_two.mp hlen2
    have ha : a = p := by
      rw [hab] at hhead
      rw [hp] at hhead
      exact Option.some.inj hhead
    have hqp : b ≠ p := by
      rw [hab, ha] at hnodup
      intro hbp
      rw [hbp] at hnodup
      simp at hnodup
    refine ⟨b, by rw [hab]; rfl, hqp, ?_⟩
    simp only [Gateway.set_route, hp]
    rw [if_neg hph, hab]
    rw [if_pos (by simp)]
    rfl
  · intro hph hcard
    have hlen1 : ¬ 1 < (ConsistentHashRing.get_nodes_for_replication hashFn r key 2).length := by
      omega
    simp only [Gateway.set_route, hp]
    rw [if_neg hph, if_neg hlen1]

/-- **C2 (counterexample to the claim as stated).** On the two-node ring,
key `"j"` has primary node 1 and replication list `[1, 2]`.  With node 1
unhealthy and node 2 healthy, the claim says DELETE is forwarded to the
healthy successor 2 — the code returns an error (the 503 is even converted
to a 500).  With *no* healthy node at all, the claim says SET returns
ServiceUnavailable — the code forwards the request to the unhealthy node
2. -/
theorem C2_gateway_no_healthy_walk :
    ConsistentHashRing.get_node exHash exRing "j" = some 1
    ∧ (1 ∉ ([2] : List Nat))
    ∧ (2 ∈ ([2] : List Nat))
    ∧ ConsistentHashRing.get_nodes_for_replication exHash exRing "j" 2 = [1, 2]
    ∧ Gateway.delete_route exHash exRing [2] "j" = RouteResult.internalError
    ∧ Gateway.set_route exHash exRing [] "j" = RouteResult.forwarded 2 := by
  decide

/-- Witness for C2 (amended) on the concrete ring: primary 1 unhealthy,
DELETE fails, SET is forwarded to node 2 (regardless of node 2's health). -/
theorem C2_gateway_routing_amended_witness :
    Gateway.delete_route exHash exRing [2] "j" = RouteResult.internalError
    ∧ ∃ q, (ConsistentHashRing.get_nodes_for_replication exHash exRing "j" 2)[1]?
          = some q
        ∧ q ≠ 1
        ∧ Gateway.set_route exHash exRing [2] "j" = RouteResult.forwarded q :=
  ⟨(C2_gateway_routing_amended exHash exRing [2] "j" 1 (by decide) (by decide)
      (by decide)).2.1 (by decide),
    (C2_gateway_routing_amended exHash exRing [2] "j" 1 (by decide) (by decide)
      (by decide)).2.2.1 (by decide) (by decide)⟩

/-! ## Merkle tree (`src/distributed/merkle_tree.py`)

`MerkleTree.__init__` hashes, for each key in sorted order, the string
`f"{key}:{json.dumps(value, sort_keys=True)}"` with SHA-256 (`hexdigest`),
and `_build_tree` folds the resulting hex strings pairwise (duplicating the
final hash of an odd level) up to a single root; the empty tree's root is
`sha256(b"")`.  Strings are modelled as `List Char`; the canonical JSON
encoder is an opaque parameter `enc : Json → List Char` and SHA-256
hexdigest an opaque parameter `H : List Char → List Char`.  The properties
of the real functions that claim C6 needs — collision-freeness on the
finitely many inputs actually hashed, 64-character colon-free hex output,
and that `f"{k}:{enc(v)}"` determines `k` — appear as hypotheses. -/

/-- `f"{key}:{value_str}"` (`merkle_tree.py:37-38`). -/
def leafInput (enc : Json → List Char) (k : String) (v : Json) : List Char :=
  k.data ++ ':' :: enc v

/-- `for key in sorted(data.keys())`: the data dict in ascending key order. -/
def sortKeysData (d : List (String × Json)) : List (String × Json) :=
  List.insertionSort (fun a b => a.1 ≤ b.1) d

namespace MerkleTree

/-- `self.leaves` (`merkle_tree.py:32-39`): key → SHA-256 of the leaf input,
in ascending key order. -/
def leaves (enc : Json → List Char) (H : List Char → List Char)
    (data : List (String × Json)) : List (String × List Char) :=
  (sortKeysData data).map (fun kv => (kv.1, H (leafInput enc kv.1 kv.2)))

end MerkleTree

/-- The concatenations `hashes[i] + hashes[i+1]` (duplicating the last hash
of an odd level) that one level of `_build_tree` feeds to SHA-256
(`merkle_tree.py:61-66`). -/
def pairConcats : List (List Char) → List (List Char)
  | [] => []
  | [h] => [h ++ h]
  | h1 :: h2 :: rest => (h1 ++ h2) :: pairConcats rest

/-- One parent level of `_build_tree` (`merkle_tree.py:59-69`). -/
def pairHashes (H : List Char → List Char) : List (List Char) → List (List Char)
  | [] => []
  | [h] => [H (h ++ h)]
  | h1 :: h2 :: rest => H (h1 ++ h2) :: pairHashes H rest

theorem pairHashes_length (H : List Char → List Char) :
    ∀ (l : List (List Char)), (pairHashes H l).length = (l.length + 1) / 2
  | [] => by simp [pairHashes]
  | [h] => by simp [pairHashes]
  | h1 :: h2 :: rest => by
    simp only [pairHashes, List.length_cons, pairHashes_length H rest]
    omega

/-- `_build_tree` (`merkle_tree.py:44-72`): empty → `sha256(b"")`, singleton
→ that hash, otherwise recurse on the parent level. -/
def buildTree (H : List Char → List Char) (hashes : List (List Char)) : List Char :=
  match hashes with
  | [] => H []
  | [h] => h
  | h1 :: h2 :: rest => buildTree H (pairHashes H (h1 :: h2 :: rest))
termination_by hashes.length
decreasing_by
  simp only [pairHashes, List.length_cons, pairHashes_length H rest]
  omega

/-- `MerkleTree.root` (`merkle_tree.py:42`): `_build_tree` over the leaf
hashes in ascending key order. -/
def MerkleTree.root (enc : Json → List Char) (H : List Char → List Char)
    (data : List (String × Json)) : List Char :=
  buildTree H ((MerkleTree.leaves enc H data).map Prod.snd)

/-- Every string fed to SHA-256 by `_build_tree`: the per-level pair
concatenations, plus `b""` for the empty tree. -/
def buildInputs (H : List Char → List Char) (hashes : List (List Char)) :
    List (List Char) :=
  match hashes with
  | [] => [[]]
  | [_] => []
  | h1 :: h2 :: rest =>
      pairConcats (h1 :: h2 :: rest) ++ buildInputs H (pairHashes H (h1 :: h2 :: rest))
termination_by hashes.length
decreasing_by
  simp only [pairHashes, List.length_cons, pairHashes_length H rest]
  omega

/-- Every string a tree construction over `data` feeds to SHA-256: the leaf
inputs and the inner-level concatenations. -/
def usedInputs (enc : Json → List Char) (H : List Char → List Char)
    (data : List (String × Json)) : List (List Char) :=
  (sortKeysData data).map (fun kv => leafInput enc kv.1 kv.2) ++
    buildInputs H ((MerkleTree.leaves enc H data).map Prod.snd)

/-- SHA-256 behaves like an ideal hash on the inputs `S`: collision-free,
and every digest is 64 characters of hex (in particular colon-free). -/
def GoodHash (H : List Char → List Char) (S : List (List Char)) : Prop :=
  (∀ s1 ∈ S, ∀ s2 ∈ S, H s1 = H s2 → s1 = s2) ∧
    ∀ s ∈ S, (H s).length = 64 ∧ ':' ∉ H s

/-- The canonical encoding separates keys: equal strings
`f"{k}:{json.dumps(v, sort_keys=True)}"` come from equal keys (true of the
real encoder, whose output is a JSON document: no proper suffix of one that
follows a `":"` is again a JSON document). -/
def LeafKeyInj (enc : Json → List Char) (entries : List (String × Json)) : Prop :=
  ∀ kv1 ∈ entries, ∀ kv2 ∈ entries,
    leafInput enc kv1.1 kv1.2 = leafInput enc kv2.1 kv2.2 → kv1.1 = kv2.1

/-- `HDen H S h ls`: under hash `H` with input universe `S`, the digest `h`
is the Merkle combination of the leaf-input sequence `ls` — the empty root,
a single leaf hash, or an inner node combining two sub-digests. -/
inductive HDen (H : List Char → List Char) (S : List (List Char)) :
    List Char → List (List Char) → Prop where
  | emptyTree (hmem : ([] : List Char) ∈ S) : HDen H S (H []) []
  | leaf (s : List Char) (hmem : s ∈ S) (hcolon : ':' ∈ s) : HDen H S (H s) [s]
  | node (a b : List Char) (la lb : List (List Char))
      (ha : HDen H S a la) (hb : HDen H S b lb) (hmem : (a ++ b) ∈ S) :
      HDen H S (H (a ++ b)) (la ++ lb)

theorem HDen_shape {H : List Char → List Char} {S : List (List Char)}
    {h : List Char} {l : List (List Char)} (d : HDen H S h l) :
    ∃ s, s ∈ S ∧ h = H s := by
  cases d with
  | emptyTree hmem => exact ⟨[], hmem, rfl⟩
  | leaf s hmem hcolon => exact ⟨s, hmem, rfl⟩
  | node a b la lb ha hb hmem => exact ⟨a ++ b, hmem, rfl⟩

theorem HDen_unique {H : List Char → List Char} {S : List (List Char)}
    (hGH : GoodHash H S) {h1 : List Char} {l1 : List (List Char)}
    (d1 : HDen H S h1 l1) :
    ∀ {h2 : List Char} {l2 : List (List Char)},
      HDen H S h2 l2 → h1 = h2 → l1 = l2 := by
  induction d1 with
  | emptyTree hmem =>
    intro h2 l2 d2 heq
    cases d2 with
    | emptyTree _ => rfl
    | leaf s hs hc =>
      rw [← hGH.1 [] hmem s hs heq] at hc
      exact absurd hc (List.not_mem_nil _)
    | node a b la lb ha hb hmem2 =>
      obtain ⟨sa, hsa, rfl⟩ := HDen_shape ha
      have hlen := (hGH.2 sa hsa).1
      have heq2 := congrArg List.length (hGH.1 [] hmem _ hmem2 heq)
      simp only [List.length_nil, List.length_append, hlen] at heq2
      omega
  | leaf s hs hc =>
    intro h2 l2 d2 heq
    cases d2 with
    | emptyTree hmem =>
      rw [hGH.1 s hs [] hmem heq] at hc
      exact absurd hc (List.not_mem_nil _)
    | leaf s2 hs2 hc2 =>
      rw [hGH.1 s hs s2 hs2 heq]
    | node a b la lb ha hb hmem2 =>
      obtain ⟨sa, hsa, rfl⟩ := HDen_shape ha
      obtain ⟨sb, hsb, rfl⟩ := HDen_shape hb
      have heq2 := hGH.1 s hs _ hmem2 heq
      rw [heq2] at hc
      rcases List.mem_append.mp hc with hcm | hcm
      · exact absurd hcm (hGH.2 sa hsa).2
      · exact absurd hcm (hGH.2 sb hsb).2
  | node a b la lb ha hb hmem iha ihb =>
    intro h2 l2 d2 heq
    cases d2 with
    | emptyTree hmem2 =>
      obtain ⟨sa, hsa, rfl⟩ := HDen_shape ha
      have hlen := (hGH.2 sa hsa).1
      have heq2 := congrArg List.length (hGH.1 _ hmem [] hmem2 heq)
      simp only [List.length_nil, List.length_append, hlen] at heq2
      omega
    | leaf s2 hs2 hc2 =>
      obtain ⟨sa, hsa, rfl⟩ := HDen_shape ha
      obtain ⟨sb, hsb, rfl⟩ := HDen_shape hb
      have heq2 := hGH.1 _ hmem s2 hs2 heq
      rw [← heq2] at hc2
      rcases List.mem_append.mp hc2 with hcm | hcm
      · exact absurd hcm (hGH.2 sa hsa).2
      · exact absurd hcm (hGH.2 sb hsb).2
    | node a2 b2 la2 lb2 ha2 hb2 hmem2 =>
      obtain ⟨sa, hsa, hsaeq⟩ := HDen_shape ha
      obtain ⟨sa2, hsa2, hsa2eq⟩ := HDen_shape ha2
      have heq2 := hGH.1 _ hmem _ hmem2 heq
      have hlena : a.length = a2.length := by
        rw [hsaeq, hsa2eq, (hGH.2 sa hsa).1, (hGH.2 sa2 hsa2).1]
      obtain ⟨haa, hbb⟩ := List.append_inj heq2 hlena
      rw [iha ha2 haa, ihb hb2 hbb]

/-- The leaf-sequence analogue of one `pairHashes` level. -/
def pairDen : List (List (List Char)) → List (List (List Char))
  | [] => []
  | [d] => [d ++ d]
  | d1 :: d2 :: rest => (d1 ++ d2) :: pairDen rest

theorem pairDen_length :
    ∀ (ds : List (List (List Char))), (pairDen ds).length = (ds.length + 1) / 2
  | [] => by simp [pairDen]
  | [d] => by simp [pairDen]
  | d1 :: d2 :: rest => by
    simp only [pairDen, List.length_cons, pairDen_length rest]
    omega

/-- The leaf sequence denoted by the root of a tree whose levels carry the
given leaf sequences. -/
def rootDen (ds : List (List (List Char))) : List (List Char) :=
  match ds with
  | [] => []
  | [d] => d
  | d1 :: d2 :: rest => rootDen (pairDen (d1 :: d2 :: rest))
termination_by ds.length
decreasing_by
  simp only [pairDen, List.length_cons, pairDen_length rest]
  omega

theorem pairHashes_den {H : List Char → List Char} {S : List (List Char)} :
    ∀ (L : List (List Char)) (ds : List (List (List Char))),
      List.Forall₂ (HDen H S) L ds →
      (∀ c ∈ pairConcats L, c ∈ S) →
      List.Forall₂ (HDen H S) (pairHashes H L) (pairDen ds)
  | [], ds, f2, _ => by
    cases f2
    exact List.Forall₂.nil
  | [h], ds, f2, hsub => by
    cases f2 with
    | cons hd tail =>
      cases tail
      exact List.Forall₂.cons
        (HDen.node _ _ _ _ hd hd (hsub _ (by simp [pairConcats])))
        List.Forall₂.nil
  | h1 :: h2 :: rest, ds, f2, hsub => by
    cases f2 with
    | cons hd1 tail =>
      cases tail with
      | cons hd2 tail2 =>
        refine List.Forall₂.cons
          (HDen.node _ _ _ _ hd1 hd2 (hsub _ (by simp [pairConcats])))
          (pairHashes_den rest _ tail2 (fun c hc => hsub c (by
            simp only [pairConcats, List.mem_cons]
            exact Or.inr hc)))

theorem buildTree_den {H : List Char → List Char} {S : List (List Char)} :
    ∀ (L : List (List Char)) (ds : List (List (List Char))),
      List.Forall₂ (HDen H S) L ds →
      (∀ c ∈ buildInputs H L, c ∈ S) →
      HDen H S (buildTree H L) (rootDen ds)
  | [], ds, f2, hsub => by
    cases f2
    simp only [buildTree, rootDen]
    exact HDen.emptyTree (hsub [] (by simp [buildInputs]))
  | [h], ds, f2, hsub => by
    cases f2 with
    | cons hd tail =>
      cases tail
      simpa [buildTree, rootDen] using hd
  | h1 :: h2 :: rest, ds, f2, hsub => by
    cases f2 with
    | cons hd1 tail =>
      cases tail with
      | cons hd2 tail2 =>
        have hsubL : ∀ c ∈ pairConcats (h1 :: h2 :: rest), c ∈ S :=
          fun c hc => hsub c (by
            simp only [buildInputs, List.mem_append]
            exact Or.inl hc)
        have hf2' := pairHashes_den (h1 :: h2 :: rest) _
          (List.Forall₂.cons hd1 (List.Forall₂.cons hd2 tail2)) hsubL
        have hsub' : ∀ c ∈ buildInputs H (pairHashes H (h1 :: h2 :: rest)), c ∈ S :=
          fun c hc => hsub c (by
            simp only [buildInputs, List.mem_append]
            exact Or.inr hc)
        have hrec := buildTree_den (pairHashes H (h1 :: h2 :: rest)) _ hf2' hsub'
        rw [buildTree, rootDen]
        exact hrec
termination_by L _ _ _ => L.length
decreasing_by
  simp only [pairHashes, List.length_cons, pairHashes_length H rest]
  omega

theorem flatten_pairDen :
    ∀ (ds : List (List (List Char))),
      ∃ R, (pairDen ds).flatten = ds.flatten ++ R ∧ ∀ x ∈ R, ∃ d ∈ ds, x ∈ d
  | [] => ⟨[], rfl, by simp⟩
  | [d] => ⟨d, by simp [pairDen], fun x hx => ⟨d, by simp, hx⟩⟩
  | d1 :: d2 :: rest => by
    obtain ⟨R, hR, hmem⟩ := flatten_pairDen rest
    refine ⟨R, ?_, ?_⟩
    · simp only [pairDen, List.flatten_cons, hR, List.append_assoc]
    · intro x hx
      obtain ⟨d, hd, hxd⟩ := hmem x hx
      exact ⟨d, by simp [hd], hxd⟩

theorem mem_of_mem_pairDen :
    ∀ (ds : List (List (List Char))) (d : List (List Char)),
      d ∈ pairDen ds → ∀ x ∈ d, ∃ e ∈ ds, x ∈ e
  | [], d, hd, x, hx => by simp [pairDen] at hd
  | [d0], d, hd, x, hx => by
    simp only [pairDen, List.mem_singleton] at hd
    subst hd
    rcases List.mem_append.mp hx with hx0 | hx0 <;>
      exact ⟨d0, by simp, hx0⟩
  | d1 :: d2 :: rest, d, hd, x, hx => by
    rcases List.mem_cons.mp hd with rfl | hd'
    · rcases List.mem_append.mp hx with hx0 | hx0
      · exact ⟨d1, by simp, hx0⟩
      · exact ⟨d2, by simp, hx0⟩
    · obtain ⟨e, he, hxe⟩ := mem_of_mem_pairDen rest d hd' x hx
      exact ⟨e, by simp [he], hxe⟩

theorem rootDen_extends :
    ∀ (ds : List (List (List Char))),
      ∃ R, rootDen ds = ds.flatten ++ R ∧ ∀ x ∈ R, ∃ d ∈ ds, x ∈ d
  | [] => ⟨[], by simp [rootDen], by simp⟩
  | [d] => ⟨[], by simp [rootDen], by simp⟩
  | d1 :: d2 :: rest => by
    obtain ⟨R1, hR1, hmem1⟩ := rootDen_extends (pairDen (d1 :: d2 :: rest))
    obtain ⟨R2, hR2, hmem2⟩ := flatten_pairDen (d1 :: d2 :: rest)
    refine ⟨R2 ++ R1, ?_, ?_⟩
    · rw [rootDen, hR1, hR2, List.append_assoc]
    · intro x hx
      rcases List.mem_append.mp hx with hx2 | hx1
      · exact hmem2 x hx2
      · obtain ⟨d, hd, hxd⟩ := hmem1 x hx1
        exact mem_of_mem_pairDen _ d hd x hxd
termination_by ds => ds.length
decreasing_by
  simp only [pairDen, List.length_cons, pairDen_length rest]
  omega

theorem flatten_map_singleton :
    ∀ (P : List (List Char)), (P.map (fun s => ([s] : List (List Char)))).flatten = P
  | [] => rfl
  | p :: rest => by
    simp only [List.map_cons, List.flatten_cons, List.singleton_append,
      flatten_map_singleton rest]

/-- The leaf-input sequence denoted by the root built from leaf sequence
`P`: `P` itself followed by the duplicated blocks that odd levels repeat. -/
def dupLeaves (P : List (List Char)) : List (List Char) :=
  rootDen (P.map (fun s => [s]))

theorem dupLeaves_extends (P : List (List Char)) :
    ∃ R, dupLeaves P = P ++ R ∧ ∀ x ∈ R, x ∈ P := by
  obtain ⟨R, hR, hmem⟩ := rootDen_extends (P.map (fun s => [s]))
  refine ⟨R, by rw [dupLeaves, hR, flatten_map_singleton], ?_⟩
  intro x hx
  obtain ⟨d, hd, hxd⟩ := hmem x hx
  obtain ⟨p, hp, hpd⟩ := List.mem_map.mp hd
  rw [← hpd] at hxd
  rw [List.mem_singleton.mp hxd]
  exact hp

theorem prefix_pad_inj {P Q R1 R2 : List (List Char)}
    (hQ : Q.Nodup) (h : P ++ R1 = Q ++ R2)
    (hR1 : ∀ x ∈ R1, x ∈ P) (hle : P.length ≤ Q.length) : P = Q := by
  have htake := congrArg (List.take P.length) h
  rw [List.take_left, List.take_append_of_le_length hle] at htake
  by_cases hlen : P.length = Q.length
  · rw [htake, hlen, List.take_length]
  · have hlt : P.length < Q.length := lt_of_le_of_ne hle hlen
    exfalso
    have hgq := congrArg (fun l => l[P.length]?) h
    simp only at hgq
    rw [List.getElem?_append_right (le_refl P.length), Nat.sub_self,
      List.getElem?_append_left hlt] at hgq
    have hR1ne : 0 < R1.length := by
      have hlens := congrArg List.length h
      simp only [List.length_append] at hlens
      omega
    rw [List.getElem?_eq_getElem hR1ne, List.getElem?_eq_getElem hlt] at hgq
    have hq0 : R1[0] = Q[P.length] := Option.some.inj hgq
    have hmemP : Q[P.length] ∈ Q.take P.length := by
      rw [← htake, ← hq0]
      exact hR1 _ (List.getElem_mem _)
    have hmemD : Q[P.length] ∈ Q.drop P.length := by
      have hdl : 0 < (Q.drop P.length).length := by
        rw [List.length_drop]
        omega
      have hdg : (Q.drop P.length)[0] = Q[P.length] := by
        rw [List.getElem_drop]
        congr 1
      rw [← hdg]
      exact List.getElem_mem _
    exact List.disjoint_take_drop hQ (le_refl P.length) hmemP hmemD

theorem dupLeaves_inj {P Q : List (List Char)} (hP : P.Nodup) (hQ : Q.Nodup)
    (h : dupLeaves P = dupLeaves Q) : P = Q := by
  obtain ⟨R1, hR1, hmem1⟩ := dupLeaves_extends P
  obtain ⟨R2, hR2, hmem2⟩ := dupLeaves_extends Q
  rw [hR1, hR2] at h
  rcases le_total P.length Q.length with hle | hle
  · exact prefix_pad_inj hQ h hmem1 hle
  · exact (prefix_pad_inj hP h.symm hmem2 hle).symm

theorem sortKeysData_perm (d : List (String × Json)) :
    List.Perm (sortKeysData d) d :=
  List.perm_insertionSort _ _

theorem leafHashes_eq (enc : Json → List Char) (H : List Char → List Char)
    (d : List (String × Json)) :
    (MerkleTree.leaves enc H d).map Prod.snd =
      ((sortKeysData d).map (fun kv => leafInput enc kv.1 kv.2)).map H := by
  rw [MerkleTree.leaves, List.map_map, List.map_map]
  rfl

theorem leaves_forall2 {H : List Char → List Char} {S : List (List Char)} :
    ∀ (P : List (List Char)), (∀ p ∈ P, p ∈ S ∧ ':' ∈ p) →
      List.Forall₂ (HDen H S) (P.map H) (P.map (fun s => ([s] : List (List Char))))
  | [], _ => List.Forall₂.nil
  | p :: rest, hmem => by
    refine List.Forall₂.cons ?_ (leaves_forall2 rest
      (fun q hq => hmem q (List.mem_cons_of_mem _ hq)))
    obtain ⟨hS, hc⟩ := hmem p (List.mem_cons_self _ _)
    exact HDen.leaf p hS hc

theorem eq_of_fst_eq_of_nodupkeys :
    ∀ (l : List (String × Json)), (l.map Prod.fst).Nodup →
      ∀ x ∈ l, ∀ y ∈ l, x.1 = y.1 → x = y
  | [], _, x, hx, _, _, _ => by simp at hx
  | a :: t, hnd, x, hx, y, hy, hxy => by
    rw [List.map_cons, List.nodup_cons] at hnd
    rcases List.mem_cons.mp hx with rfl | hx'
    · rcases List.mem_cons.mp hy with rfl | hy'
      · rfl
      · exact absurd (hxy ▸ List.mem_map.mpr ⟨y, hy', rfl⟩) hnd.1
    · rcases List.mem_cons.mp hy with rfl | hy'
      · exact absurd (hxy ▸ List.mem_map.mpr ⟨x, hx', rfl⟩ : y.1 ∈ t.map Prod.fst) hnd.1
      · exact eq_of_fst_eq_of_nodupkeys t hnd.2 x hx' y hy' hxy

theorem leafInputs_nodup (enc : Json → List Char) (d other : List (String × Json))
    (hn : (d.map Prod.fst).Nodup)
    (hinj : LeafKeyInj enc (d ++ other)) :
    ((sortKeysData d).map (fun kv => leafInput enc kv.1 kv.2)).Nodup := by
  have hkeys : ((sortKeysData d).map Prod.fst).Nodup :=
    ((sortKeysData_perm d).map Prod.fst).nodup_iff.mpr hn
  refine List.Nodup.map_on ?_ (List.Nodup.of_map Prod.fst hkeys)
  intro x hx y hy hleq
  have hxd : x ∈ d ++ other :=
    List.mem_append_left _ ((sortKeysData_perm d).mem_iff.mp hx)
  have hyd : y ∈ d ++ other :=
    List.mem_append_left _ ((sortKeysData_perm d).mem_iff.mp hy)
  exact eq_of_fst_eq_of_nodupkeys _ hkeys x hx y hy (hinj x hxd y hyd hleq)

theorem merkle_backward (enc : Json → List Char) (H : List Char → List Char)
    (d1 d2 : List (String × Json))
    (hn1 : (d1.map Prod.fst).Nodup) (hn2 : (d2.map Prod.fst).Nodup)
    (hGH : GoodHash H (usedInputs enc H d1 ++ usedInputs enc H d2))
    (hinj : LeafKeyInj enc (d1 ++ d2))
    (hroot : MerkleTree.root enc H d1 = MerkleTree.root enc H d2) :
    MerkleTree.leaves enc H d1 = MerkleTree.leaves enc H d2 := by
  have hPmem1 : ∀ p ∈ (sortKeysData d1).map (fun kv => leafInput enc kv.1 kv.2),
      p ∈ usedInputs enc H d1 ++ usedInputs enc H d2 ∧ ':' ∈ p := by
    intro p hp
    constructor
    · exact List.mem_append_left _ (List.mem_append_left _ hp)
    · obtain ⟨kv, _, rfl⟩ := List.mem_map.mp hp
      exact List.mem_append.mpr (Or.inr (List.mem_cons_self _ _))
  have hPmem2 : ∀ p ∈ (sortKeysData d2).map (fun kv => leafInput enc kv.1 kv.2),
      p ∈ usedInputs enc H d1 ++ usedInputs enc H d2 ∧ ':' ∈ p := by
    intro p hp
    constructor
    · exact List.mem_append_right _ (List.mem_append_left _ hp)
    · obtain ⟨kv, _, rfl⟩ := List.mem_map.mp hp
      exact List.mem_append.mpr (Or.inr (List.mem_cons_self _ _))
  have hbsub1 : ∀ c ∈ buildInputs H
      (((sortKeysData d1).map (fun kv => leafInput enc kv.1 kv.2)).map H),
      c ∈ usedInputs enc H d1 ++ usedInputs enc H d2 := by
    intro c hc
    rw [← leafHashes_eq] at hc
    exact List.mem_append_left _ (List.mem_append_right _ hc)
  have hbsub2 : ∀ c ∈ buildInputs H
      (((sortKeysData d2).map (fun kv => leafInput enc kv.1 kv.2)).map H),
      c ∈ usedInputs enc H d1 ++ usedInputs enc H d2 := by
    intro c hc
    rw [← leafHashes_eq] at hc
    exact List.mem_append_right _ (List.mem_append_right _ hc)
  have hden1 := buildTree_den _ _ (leaves_forall2 _ hPmem1) hbsub1
  have hden2 := buildTree_den _ _ (leaves_forall2 _ hPmem2) hbsub2
  have hroot' : buildTree H
      (((sortKeysData d1).map (fun kv => leafInput enc kv.1 kv.2)).map H) =
        buildTree H
      (((sortKeysData d2).map (fun kv => leafInput enc kv.1 kv.2)).map H) := by
    rw [MerkleTree.root, MerkleTree.root, leafHashes_eq, leafHashes_eq] at hroot
    exact hroot
  have hdup := HDen_unique hGH hden1 hden2 hroot'
  have hPP : (sortKeysData d1).map (fun kv => leafInput enc kv.1 kv.2) =
      (sortKeysData d2).map (fun kv => leafInput enc kv.1 kv.2) :=
    dupLeaves_inj (leafInputs_nodup enc d1 d2 hn1 hinj)
      (leafInputs_nodup enc d2 d1 hn2 (fun kv1 h1 kv2 h2 he =>
        hinj kv1 (List.mem_append.mpr (List.mem_append.mp h1).symm)
          kv2 (List.mem_append.mpr (List.mem_append.mp h2).symm) he))
      hdup
  have hlen : (sortKeysData d1).length = (sortKeysData d2).length := by
    have := congrArg List.length hPP
    simpa using this
  rw [MerkleTree.leaves, MerkleTree.leaves]
  apply List.ext_getElem (by simpa using hlen)
  intro i hi1 hi2
  rw [List.length_map] at hi1 hi2
  rw [List.getElem_map, List.getElem_map]
  have hgi := congrArg (fun l => l[i]?) hPP
  simp only [List.getElem?_map] at hgi
  rw [List.getElem?_eq_getElem hi1, List.getElem?_eq_getElem hi2] at hgi
  simp only [Option.map_some'] at hgi
  have hleq : leafInput enc ((sortKeysData d1)[i]).1 ((sortKeysData d1)[i]).2
      = leafInput enc ((sortKeysData d2)[i]).1 ((sortKeysData d2)[i]).2 :=
    Option.some.inj hgi
  have hkeq : ((sortKeysData d1)[i]).1 = ((sortKeysData d2)[i]).1 :=
    hinj _ (List.mem_append_left _
        ((sortKeysData_perm d1).mem_iff.mp (List.getElem_mem _)))
      _ (List.mem_append_right _
        ((sortKeysData_perm d2).mem_iff.mp (List.getElem_mem _)))
      hleq
  simp only [Prod.mk.injEq]
  exact ⟨hkeq, congrArg H hleq⟩

/-- **C6.** For Merkle trees built from key-to-value maps: the root hashes
are equal **iff** the trees have identical leaf tables (same sorted keys
with equal leaf hashes).  The forward direction (equal leaves → equal roots)
is unconditional — the `mpr` branch below uses none of the hypotheses; the
backward direction holds assuming SHA-256 is collision-free on the finitely
many inputs the two constructions hash (`GoodHash`, which also records the
64-hex-character digest shape) and that the canonical leaf encoding
separates keys (`LeafKeyInj`), both properties of the real SHA-256 /
`json.dumps`. -/
theorem C6_merkle_root_iff (enc : Json → List Char) (H : List Char → List Char)
    (d1 d2 : List (String × Json))
    (hn1 : (d1.map Prod.fst).Nodup) (hn2 : (d2.map Prod.fst).Nodup)
    (hGH : GoodHash H (usedInputs enc H d1 ++ usedInputs enc H d2))
    (hinj : LeafKeyInj enc (d1 ++ d2)) :
    MerkleTree.root enc H d1 = MerkleTree.root enc H d2 ↔
      MerkleTree.leaves enc H d1 = MerkleTree.leaves enc H d2 := by
  constructor
  · exact merkle_backward enc H d1 d2 hn1 hn2 hGH hinj
  · intro h
    rw [MerkleTree.root, MerkleTree.root, h]

/-- A concrete stand-in for `json.dumps` on the single value used by the C6
witness. -/
def encEx : Json → List Char := fun _ => "null".data

/-- A concrete stand-in for SHA-256 hexdigest on the two inputs used by the
C6 witness: 64-character colon-free outputs, distinct on distinct inputs. -/
def HEx : List Char → List Char := fun s =>
  if s = "a:null".data then List.replicate 64 'a' else List.replicate 64 'b'

/-- Witness for C6 on the one-entry tree `{"a": null}` against the empty
tree. -/
theorem C6_merkle_root_iff_witness :
    MerkleTree.root encEx HEx [("a", Json.null)] = MerkleTree.root encEx HEx []
      ↔ MerkleTree.leaves encEx HEx [("a", Json.null)] =
          MerkleTree.leaves encEx HEx [] := by
  apply C6_merkle_root_iff
  · decide
  · decide
  · have e2 : (MerkleTree.leaves encEx HEx [("a", Json.null)]).map Prod.snd
        = [HEx ("a:null".data)] := by decide
    have e3 : buildInputs HEx [HEx ("a:null".data)] = [] := by
      simp [buildInputs]
    have e5 : (MerkleTree.leaves encEx HEx ([] : List (String × Json))).map
        Prod.snd = [] := by decide
    have e6 : buildInputs HEx ([] : List (List Char)) = [[]] := by
      simp [buildInputs]
    have hS : usedInputs encEx HEx [("a", Json.null)] ++ usedInputs encEx HEx [] =
        ["a:null".data, []] := by
      unfold usedInputs
      rw [e2, e3, e5, e6]
      decide
    unfold GoodHash
    rw [hS]
    decide
  · unfold LeafKeyInj
    decide
